import Mathlib

/-!
Shallow embedding of the survhive optimization core (owkin/sparsesurv) and
verification of its specification claims.

Conventions of the embedding:
* numpy float arrays are modelled as `List ℝ`; machine floating point is
  idealised to the real numbers, so `np.exp`, `np.log`, `np.sqrt` become
  `Real.exp`, `Real.log`, `Real.sqrt`.
* the 0/1 event-indicator arrays are modelled as `List Bool`.
* the numba kernels iterate index `i` over arrays of one common length; this
  is represented by folding over the zipped list of per-sample triples
  `(linear_predictor[i], time[i], event[i])`.
* in-place mutation of a caller-supplied buffer is represented by returning,
  next to the function result, the final contents of that buffer.
* a Python statement that raises is represented with `Except String`.
-/

namespace Survhive

noncomputable section

/-! ## loss.py : Breslow and Efron negative log partial likelihoods -/

/-- Loop state of `breslow_likelihood` (loss.py lines 53-84): the variables
`previous_time`, `risk_set_sum`, `likelihood`, `set_count`, `accumulated_sum`. -/
structure BreslowState where
  previousTime : ℝ
  riskSetSum : ℝ
  likelihood : ℝ
  setCount : ℕ
  accumulatedSum : ℝ

/-- One iteration of the main loop of `breslow_likelihood`, for the sample
`x = (linear_predictor[k], time[k], event[k])`. -/
def breslowStep (s : BreslowState) (x : ℝ × ℝ × Bool) : BreslowState :=
  let s1 :=
    if s.previousTime < x.2.1 then
      { s with
        likelihood := s.likelihood - (s.setCount : ℝ) * Real.log s.riskSetSum,
        riskSetSum := s.riskSetSum - s.accumulatedSum,
        setCount := 0,
        accumulatedSum := 0 }
    else s
  let s2 :=
    if x.2.2 then
      { s1 with setCount := s1.setCount + 1, likelihood := s1.likelihood + x.1 }
    else s1
  { s2 with previousTime := x.2.1, accumulatedSum := s2.accumulatedSum + Real.exp x.1 }

/-- The per-sample triples `(linear_predictor[i], time[i], event[i])` that the
numba kernels read; the kernels index all three arrays by a common `i`. -/
def zipSamples (lp time : List ℝ) (event : List Bool) : List (ℝ × ℝ × Bool) :=
  lp.zip (time.zip event)

/-- `breslow_likelihood` (loss.py lines 53-84).  The initial `risk_set_sum` is
the sum of `exp(linear_predictor[i])` for `i < time.shape[0]`, the initial
`previous_time` is `time[0]`. -/
def breslow_likelihood (lp time : List ℝ) (event : List Bool) : ℝ :=
  let init : BreslowState :=
    { previousTime := time.headD 0,
      riskSetSum := ((lp.take time.length).map Real.exp).sum,
      likelihood := 0,
      setCount := 0,
      accumulatedSum := 0 }
  let final := (zipSamples lp time event).foldl breslowStep init
  (-(final.likelihood - (final.setCount : ℝ) * Real.log final.riskSetSum)) / (time.length : ℝ)

/-- Loop state of `efron_likelihood` (loss.py lines 10-50). -/
structure EfronState where
  previousTime : ℝ
  riskSetSum : ℝ
  accumulatedSum : ℝ
  deathSetCount : ℕ
  deathSetRisk : ℝ
  likelihood : ℝ

/-- The total subtracted from the likelihood by the Efron tie-block flush
`for ell in range(death_set_count): likelihood -= log(risk_set_sum -
(ell / death_set_count) * death_set_risk)`. -/
def efronBlock (riskSetSum deathSetRisk : ℝ) (deathSetCount : ℕ) : ℝ :=
  ∑ ell ∈ Finset.range deathSetCount,
    Real.log (riskSetSum - ((ell : ℝ) / (deathSetCount : ℝ)) * deathSetRisk)

/-- One iteration of the main loop of `efron_likelihood`, for the sample
`x = (linear_predictor[i], time[i], event[i])`. -/
def efronStep (s : EfronState) (x : ℝ × ℝ × Bool) : EfronState :=
  let s1 :=
    if s.previousTime < x.2.1 then
      { s with
        likelihood := s.likelihood - efronBlock s.riskSetSum s.deathSetRisk s.deathSetCount,
        riskSetSum := s.riskSetSum - s.accumulatedSum,
        accumulatedSum := 0,
        deathSetCount := 0,
        deathSetRisk := 0 }
    else s
  let s2 :=
    if x.2.2 then
      { s1 with
        deathSetCount := s1.deathSetCount + 1,
        deathSetRisk := s1.deathSetRisk + Real.exp x.1,
        likelihood := s1.likelihood + x.1 }
    else s1
  { s2 with accumulatedSum := s2.accumulatedSum + Real.exp x.1, previousTime := x.2.1 }

/-- `efron_likelihood` (loss.py lines 10-50). -/
def efron_likelihood (lp time : List ℝ) (event : List Bool) : ℝ :=
  let init : EfronState :=
    { previousTime := time.headD 0,
      riskSetSum := ((lp.take time.length).map Real.exp).sum,
      accumulatedSum := 0,
      deathSetCount := 0,
      deathSetRisk := 0,
      likelihood := 0 }
  let final := (zipSamples lp time event).foldl efronStep init
  (-(final.likelihood - efronBlock final.riskSetSum final.deathSetRisk final.deathSetCount)) /
    (time.length : ℝ)

/-! ## proximal_operators.py -/

/-- `_soft_threshold` (proximal_operators.py lines 12-14):
`np.sign(x) * np.maximum(np.abs(x) - threshold, 0.0)`, elementwise. -/
def soft_threshold (x : List ℝ) (threshold : ℝ) : List ℝ :=
  x.map fun v => Real.sign v * max (|v| - threshold) 0

/-- `np.linalg.norm(x, ord=2)` for a 1-d array. -/
def l2norm (x : List ℝ) : ℝ :=
  Real.sqrt ((x.map fun v => v ^ 2).sum)

/-- `_soft_threshold_group` (proximal_operators.py lines 17-21):
`np.sign(x) * np.maximum(np.abs(x) - threshold * (x / np.linalg.norm(x, ord=2)), 0.0)`,
elementwise over the group slice `x`.  Note the source scales the threshold by the
signed ratio `x / norm`, not by `|x| / norm`. -/
def soft_threshold_group (x : List ℝ) (threshold : ℝ) : List ℝ :=
  x.map fun v => Real.sign v * max (|v| - threshold * (v / l2norm x)) 0

/-- Result of a Python `__call__` on a proximal operator: `ret` is the returned
array, `arg` is the contents of the caller's `coef` buffer after the call
(identical to the input when the operator did not write into it). -/
structure ProxCall where
  ret : List ℝ
  arg : List ℝ

/-- `LassoProximal.__call__` (proximal_operators.py lines 117-118): returns the
fresh array `_soft_threshold(coef, self.threshold)`; `coef` is not written to. -/
def LassoProximal_call (threshold : ℝ) (coef : List ℝ) : ProxCall :=
  { ret := soft_threshold coef threshold, arg := coef }

/-- Reading the fancy-indexed slice `coef[group]`. -/
def gatherIdx (c : List ℝ) (g : List ℕ) : List ℝ :=
  g.map fun i => c.getD i 0

/-- The fancy-indexed assignment `coef[group] = vals`. -/
def scatterIdx (c : List ℝ) (g : List ℕ) (vals : List ℝ) : List ℝ :=
  (g.zip vals).foldl (fun acc iv => acc.set iv.1 iv.2) c

/-- `GroupLassoProximal.__call__` (proximal_operators.py lines 126-129): for each
group, `coef[group] = _soft_threshold_group(coef[group], self.threshold)`, then
`return coef` — the input buffer is mutated in place and returned, so `ret` and
`arg` coincide. -/
def GroupLassoProximal_call (threshold : ℝ) (groups : List (List ℕ)) (coef : List ℝ) :
    ProxCall :=
  let out := groups.foldl
    (fun c g => scatterIdx c g (soft_threshold_group (gatherIdx c g) threshold)) coef
  { ret := out, arg := out }

/-- The class names bound at module level in proximal_operators.py. -/
def proximalOperatorClasses : List String :=
  ["ProximalOperator", "LassoProximal", "GroupLassoProximal", "SGLProximal",
   "SCADProximal", "GSCADProximal", "MCPProximal", "GMCPProximal", "CMCPProximal",
   "GELProximal"]

/-- `SGLProximal.__call__` (proximal_operators.py lines 140-143): evaluates
`GLProximal(threshold=self.threshold * (1 - self.alpha), groups=self.groups)(coef)
* LassoProximal(threshold=self.threshold * self.alpha)(coef)`.  The name
`GLProximal` must resolve at call time; when it does not, Python raises a
`NameError` before anything is computed.  The dead successful branch evaluates
left to right: the group-lasso call mutates `coef` first, then the lasso call
reads the mutated buffer. -/
def SGLProximal_call (threshold alpha : ℝ) (groups : List (List ℕ)) (coef : List ℝ) :
    Except String ProxCall :=
  if "GLProximal" ∈ proximalOperatorClasses then
    let gl := GroupLassoProximal_call (threshold * (1 - alpha)) groups coef
    let la := LassoProximal_call (threshold * alpha) gl.arg
    Except.ok { ret := gl.ret.zipWith (fun a b => a * b) la.ret, arg := la.arg }
  else
    Except.error "NameError: name GLProximal is not defined"

/-! ## _utils_/cv.py -/

/-- Looking up a Python name in an environment of bound local names; an unbound
name raises `NameError`. -/
def lookupLocal (env : List String) (name : String) : Except String Unit :=
  if name ∈ env then Except.ok ()
  else Except.error ("NameError: name " ++ name ++ " is not defined")

/-- The local names bound in `CrossValidation.fit` (cv.py lines 753-871) when
control reaches the statement after the parallel dispatch: the parameters and
every assignment target up to and including `eta_path = Parallel(...)(jobs)`
(line 866).  `xcoefs_path` is not among them. -/
def fitLocalNamesAfterParallel : List String :=
  ["self", "X", "y", "sample_weight", "time", "event", "sorted_indices",
   "time_sorted", "event_sorted", "X_sorted", "y_sorted", "Xy", "model",
   "path_params", "l1_ratios", "alphas", "n_l1_ratios", "check_scalar_alpha",
   "gradient", "hessian", "n_alphas", "folds", "best_pl_score", "jobs",
   "eta_path"]

/-- The per-(l1_ratio, fold) result of `alpha_path_eta`:
`(train_eta, test_eta, y_train, y_test)`, with the per-alpha linear-predictor
columns represented as a list of columns. -/
abbrev PathFoldResult := List (List ℝ) × List (List ℝ) × List ℝ × List ℝ

/-- The statement `train_xb, test_xb, train_y, test_y = zip(*xcoefs_path)`
(cv.py line 872), executed right after `eta_path = Parallel(...)(jobs)`
(line 866): Python first resolves the name `xcoefs_path` in the environment
`fitLocalNamesAfterParallel`; only on success would the transposition of the
parallel results be computed and the rest of `fit` (scoring, arg-max selection,
setting `alpha_`, `l1_ratio_`, `coef_`, `return self`) run. -/
def CrossValidation_fit_aggregation (etaPath : List PathFoldResult) :
    Except String (List (List (List ℝ)) × List (List (List ℝ)) ×
      List (List ℝ) × List (List ℝ)) :=
  (lookupLocal fitLocalNamesAfterParallel "xcoefs_path").map fun _ =>
    (etaPath.map fun r => r.1, etaPath.map fun r => r.2.1,
     etaPath.map fun r => r.2.2.1, etaPath.map fun r => r.2.2.2)

/-- Dot product `np.matmul(row, coef)` of a sample row with a coefficient vector. -/
def dotProd (a b : List ℝ) : ℝ :=
  (a.zipWith (fun u v => u * v) b).sum

/-- `alpha_path_eta` (cv.py lines 574-659), for a caller-supplied alpha grid.
The estimator is abstracted by `fitCoef`, mapping the data actually passed to
`model.fit` and the current `alpha` to the learned `model.coef_`
(the optimiser itself lives outside this module); `model.predict` is the linear
predictor `X @ coef_` of a no-intercept linear model.  The function slices
`X_train = X[train]`, `y_train = y[train]`, `X_test = X[test]`,
`y_test = y[test]` (lines 608-611), sorts the alpha grid descending (line 637),
and then, for each alpha, calls `model.fit(X, y)` — on the full `X` and `y`,
not on the train slices (line 653) — and records `model.predict(X_train)` and
`model.predict(X_test)` as that alpha's train/test linear predictors. -/
def alpha_path_eta (fitCoef : List (List ℝ) → List ℝ → ℝ → List ℝ)
    (X : List (List ℝ)) (y : List ℝ) (train test : List ℕ) (alphas : List ℝ) :
    PathFoldResult :=
  let X_train := train.map fun i => X.getD i []
  let y_train := train.map fun i => y.getD i 0
  let X_test := test.map fun i => X.getD i []
  let y_test := test.map fun i => y.getD i 0
  let sortedAlphas := alphas.insertionSort (fun a b => b ≤ a)
  let etas := sortedAlphas.map fun a =>
    let coef := fitCoef X y a
    (X_train.map fun row => dotProd row coef, X_test.map fun row => dotProd row coef)
  (etas.map fun p => p.1, etas.map fun p => p.2, y_train, y_test)

/-- Index of the first occurrence of the maximum of a list (`np.argmax`). -/
def argmaxIdx : List ℝ → ℕ
  | [] => 0
  | x :: xs =>
    let j := argmaxIdx xs
    if xs.getD j x ≤ x then 0 else j + 1

/-- The model-selection loop of `CrossValidation.fit` (cv.py lines 847 and
928-937): starting from `best_pl_score = 0.0`, iterate over
`zip(l1_ratios, alphas, mean_cv_score)`; each iteration recomputes
`i_best_alpha = np.argmax(mean_cv_score)` over the flattened score table, reads
`this_best_pl = pl_alphas[i_best_alpha]`, and updates the running best only
when `this_best_pl < best_pl_score` holds.  After the loop,
`self.l1_ratio_ = best_l1_ratio` raises `NameError` when no iteration ever
updated.  The result is the pair `(best_alpha, best_l1_ratio)`.  (List
indexing is modelled totally with default `0`; the Python `IndexError` branch
for an out-of-range `i_best_alpha` is not exercised by the inputs considered
here.) -/
def CrossValidation_selectBest (l1Ratios : List ℝ) (alphas : List (List ℝ))
    (meanCvScore : List (List ℝ)) : Except String (ℝ × ℝ) :=
  let rows := l1Ratios.zip (alphas.zip meanCvScore)
  let final := rows.foldl
    (fun (st : ℝ × Option (ℝ × ℝ)) r =>
      let iBestAlpha := argmaxIdx meanCvScore.flatten
      let thisBestPl := r.2.2.getD iBestAlpha 0
      if thisBestPl < st.1 then (thisBestPl, some (r.2.1.getD iBestAlpha 0, r.1))
      else st)
    ((0 : ℝ), none)
  match final.2 with
  | some p => Except.ok p
  | none => Except.error "NameError: name best_l1_ratio is not defined"

/-! ## _base.py : RegularizedLinearSurvivalModel -/

/-- Modelled from the spec: `inverse_transform_survival` lives in
survhive/utils.py, which is not part of the sources here.  Spec section 6 says
`y` encodes time and event in one signed array, a negative value denoting
censoring; `_base.py` line 71 recovers the event indicator as
`np.abs(y) == y`.  So the decoded time is `|y|` and the event flag is `0 ≤ y`. -/
def inverse_transform_survival (y : ℝ) : ℝ × Bool :=
  (|y|, decide (0 ≤ y))

/-- `RegularizedLinearSurvivalModel.score` (_base.py lines 122-143): decode
`(time, event)` from `y`, stably arg-sort every input column by `time`, default
the sample weights to `np.ones(n) / n`, and return the negated
`self.loss` of the sorted data.  The subclass-supplied `self.loss` and
`self.predict` are abstracted as the parameters `lossFn` and `predict`; the
stable arg-sort followed by fancy indexing is represented as a stable insertion
sort of the `(row, y)` records by the time key. -/
def scoreRLSM (lossFn : List ℝ → List ℝ → List Bool → List ℝ → ℝ)
    (predict : List ℝ → ℝ) (X : List (List ℝ)) (y : List ℝ) : ℝ :=
  let rows := X.zip y
  let sorted := rows.insertionSort fun a b => |a.2| ≤ |b.2|
  let sample_weight := List.replicate y.length ((1 : ℝ) / (y.length : ℝ))
  (-(lossFn (sorted.map fun r => predict r.1)
      (sorted.map fun r => (inverse_transform_survival r.2).1)
      (sorted.map fun r => (inverse_transform_survival r.2).2)
      sample_weight))

/-- The stable-sort key used by `score` is a total preorder. -/
instance : IsTotal ((List ℝ) × ℝ) fun a b => |a.2| ≤ |b.2| :=
  ⟨fun a b => le_total |a.2| |b.2|⟩

/-- The stable-sort key used by `score` is transitive. -/
instance : IsTrans ((List ℝ) × ℝ) fun a b => |a.2| ≤ |b.2| :=
  ⟨fun _ _ _ hab hbc => le_trans hab hbc⟩

/-- Modelled from the spec: the estimator subclasses binding `self.loss` are
outside the sources here; the spec (sections 2 and 4.6) says each model's loss
is one of the kernels of loss.py.  This is the Breslow instance: a
`sample_weight`-accepting wrapper whose value is the kernel
`breslow_likelihood`, constant in the weights (the loss.py kernel takes no
weight argument). -/
def breslowLoss (lp time : List ℝ) (event : List Bool) (_sw : List ℝ) : ℝ :=
  breslow_likelihood lp time event

/-- Modelled from the spec: the concrete `predict_cumulative_hazard_function`
implementations are subclass code outside the sources here (`_base.py` line 95
only raises `NotImplementedError`).  Per spec section 4.6 the concrete method
accepts an arbitrary query time vector, sorts it stably, and accumulates the
baseline hazard estimated from the recorded training event indicators and
training linear predictors, scaled by `exp` of the sample's linear predictor
(Breslow-type estimator): the baseline cumulative hazard at `t` sums, over the
training deaths with time at most `t`, the reciprocal of the total partial
hazard of the samples still at risk at that death time. -/
def baselineCumulativeHazard (trainEta trainTime : List ℝ) (trainEvent : List Bool)
    (t : ℝ) : ℝ :=
  ((trainTime.zip (trainEvent.zip trainEta)).map fun s =>
    if s.2.1 = true ∧ s.1 ≤ t then
      1 / (((trainTime.zip trainEta).filter fun u => decide (s.1 ≤ u.1)).map
        fun u => Real.exp u.2).sum
    else 0).sum

/-- Modelled from the spec (see `baselineCumulativeHazard`): the cumulative
hazard table of shape (samples × sorted query times). -/
def predict_cumulative_hazard_function (trainEta trainTime : List ℝ)
    (trainEvent : List Bool) (predict : List ℝ → ℝ) (X : List (List ℝ))
    (time : List ℝ) : List (List ℝ) :=
  let ts := time.insertionSort (fun a b => a ≤ b)
  X.map fun row => ts.map fun t =>
    baselineCumulativeHazard trainEta trainTime trainEvent t * Real.exp (predict row)

/-- `RegularizedLinearSurvivalModel.predict_survival_function` (_base.py lines
97-120): `time_sorted = np.sort(time, kind="stable")`, then
`np.exp(np.negative(self.predict_cumulative_hazard_function(X, time_sorted)))`. -/
def predict_survival_function (trainEta trainTime : List ℝ) (trainEvent : List Bool)
    (predict : List ℝ → ℝ) (X : List (List ℝ)) (time : List ℝ) : List (List ℝ) :=
  let time_sorted := time.insertionSort (fun a b => a ≤ b)
  (predict_cumulative_hazard_function trainEta trainTime trainEvent predict X
    time_sorted).map fun row => row.map fun h => Real.exp (-h)

/-! ## Closed form of the Breslow loop (proof infrastructure) -/

/-- Sum of the linear predictors of the event samples of a triple list. -/
def eventLpSum (l : List (ℝ × ℝ × Bool)) : ℝ :=
  (l.map fun x => if x.2.2 then x.1 else 0).sum

/-- Sum of `exp(linear predictor)` over all samples of a triple list. -/
def expSum (l : List (ℝ × ℝ × Bool)) : ℝ :=
  (l.map fun x => Real.exp x.1).sum

/-- Sum of `exp(linear predictor)` over the samples with time at least `t`. -/
def riskSumAt (l : List (ℝ × ℝ × Bool)) (t : ℝ) : ℝ :=
  (l.map fun z => if t ≤ z.2.1 then Real.exp z.1 else 0).sum

/-- Generalised risk sum seen by a pending tie block: the remaining samples
with time at least `t`, plus the mass `a` already accumulated in the current
block when `t` does not exceed the block time `p`. -/
def riskG (p a : ℝ) (l : List (ℝ × ℝ × Bool)) (t : ℝ) : ℝ :=
  (if t ≤ p then a else 0) + riskSumAt l t

/-- Sum, over the event samples of `l`, of the log of the generalised risk sum
at the sample's time. -/
def eventLogRiskSum (p a : ℝ) (l : List (ℝ × ℝ × Bool)) : ℝ :=
  (l.map fun x => if x.2.2 then Real.log (riskG p a l x.2.1) else 0).sum

/-- Closed form of the Breslow negative mean log partial likelihood on a sorted
triple list: minus the mean, over samples, of (event linear predictors minus,
per event, the log of the total partial hazard still at risk at its time). -/
def breslowClosed (l : List (ℝ × ℝ × Bool)) : ℝ :=
  (-(eventLpSum l -
      (l.map fun x => if x.2.2 then Real.log (riskSumAt l x.2.1) else 0).sum)) /
    (l.length : ℝ)

/-- Generalisation of `eventLogRiskSum` where the risk sums are taken over a
list `big` possibly different from the list `l` being summed over. -/
def eventLogRiskSumOver (p a : ℝ) (big l : List (ℝ × ℝ × Bool)) : ℝ :=
  (l.map fun x => if x.2.2 then Real.log (riskG p a big x.2.1) else 0).sum

/-- The Breslow loop run directly on a list of per-sample triples, with the
initial state built from that list exactly as `breslow_likelihood` builds it
from the three parallel arrays. -/
def breslowOfSamples (l : List (ℝ × ℝ × Bool)) : ℝ :=
  let init : BreslowState :=
    { previousTime := (l.map fun z => z.2.1).headD 0,
      riskSetSum := expSum l,
      likelihood := 0,
      setCount := 0,
      accumulatedSum := 0 }
  let final := l.foldl breslowStep init
  (-(final.likelihood - (final.setCount : ℝ) * Real.log final.riskSetSum)) / (l.length : ℝ)

/-- Coupling of the Efron and Breslow loop states used to prove their
agreement on tie-free all-event data: all shared variables are equal and the
pending death count never exceeds one. -/
def efronBreslowRel (se : EfronState) (sb : BreslowState) : Prop :=
  se.previousTime = sb.previousTime ∧ se.riskSetSum = sb.riskSetSum ∧
    se.accumulatedSum = sb.accumulatedSum ∧ se.likelihood = sb.likelihood ∧
    se.deathSetCount = sb.setCount ∧ se.deathSetCount ≤ 1

/-! ## Closed form of the Efron loop (proof infrastructure) -/

/-- Sum of the partial hazards of the deaths at exactly time `t`. -/
def deathRiskAt (l : List (ℝ × ℝ × Bool)) (t : ℝ) : ℝ :=
  (l.map fun z => if z.2.1 = t ∧ z.2.2 then Real.exp z.1 else 0).sum

/-- Number of deaths at exactly time `t`. -/
def deathCountAt (l : List (ℝ × ℝ × Bool)) (t : ℝ) : ℕ :=
  l.countP fun z => decide (z.2.1 = t) && z.2.2

/-- The Efron flush term of the tie block at time `t` of a sample list. -/
def efronBlockAt (l : List (ℝ × ℝ × Bool)) (t : ℝ) : ℝ :=
  efronBlock (riskSumAt l t) (deathRiskAt l t) (deathCountAt l t)

/-- Total of the Efron flush terms of the blocks at times other than the
pending block time `p`. -/
def efronBlocksSum (p : ℝ) (l : List (ℝ × ℝ × Bool)) : ℝ :=
  ∑ τ ∈ (l.map fun z => z.2.1).toFinset.filter fun τ => τ ≠ p, efronBlockAt l τ

/-- The Efron loop run directly on a list of per-sample triples, with the
initial state built from that list exactly as `efron_likelihood` builds it
from the three parallel arrays. -/
def efronOfSamples (l : List (ℝ × ℝ × Bool)) : ℝ :=
  let init : EfronState :=
    { previousTime := (l.map fun z => z.2.1).headD 0,
      riskSetSum := expSum l,
      accumulatedSum := 0,
      deathSetCount := 0,
      deathSetRisk := 0,
      likelihood := 0 }
  let final := l.foldl efronStep init
  (-(final.likelihood - efronBlock final.riskSetSum final.deathSetRisk final.deathSetCount)) /
    (l.length : ℝ)

/-- Closed form of the Efron negative mean log partial likelihood on a sorted
sample list: per distinct time, the tie block subtracts its Efron flush term,
computed from multiset statistics of the sample list. -/
def efronClosed (l : List (ℝ × ℝ × Bool)) : ℝ :=
  (-(eventLpSum l -
      ∑ τ ∈ (l.map fun z => z.2.1).toFinset, efronBlockAt l τ)) / (l.length : ℝ)

/-! ## loss.py : kernel-smoothed AFT and AH likelihoods -/

/-- The vector `R_linear_predictor = np.log(time * np.exp(linear_predictor))`
of loss.py lines 102 and 146, per sample triple. -/
def sampleR (x : ℝ × ℝ × Bool) : ℝ :=
  Real.log (x.2.1 * Real.exp x.1)

/-- Column `x` of `kernel_matrix[event_mask, :].sum(axis=0)` (loss.py lines
115, 119 and 158, 161): the kernel evaluated between each event row `z` and
the event column `x`, summed over the rows.  The kernel function `K` and the
orientation of the difference are those of `difference_kernels`
(survhive/utils.py, outside the sources here), kept abstract. -/
def kernelColSum (K : ℝ → ℝ) (bandwidth : ℝ) (E : List (ℝ × ℝ × Bool))
    (x : ℝ × ℝ × Bool) : ℝ :=
  (E.map fun z => K ((sampleR z - sampleR x) / bandwidth)).sum

/-- Column `x` of the weighted integrated-kernel sum of `ah_likelihood`
(loss.py lines 121-124): rows run over all samples `z`, weighted by
`exp(linear_predictor[z])`. -/
def integratedColSumW (IK : ℝ → ℝ) (bandwidth : ℝ) (l : List (ℝ × ℝ × Bool))
    (x : ℝ × ℝ × Bool) : ℝ :=
  (l.map fun z => Real.exp z.1 * IK ((sampleR z - sampleR x) / bandwidth)).sum

/-- Column `x` of the unweighted integrated-kernel sum of `aft_likelihood`
(loss.py line 162): rows run over all samples `z`. -/
def integratedColSum (IK : ℝ → ℝ) (bandwidth : ℝ) (l : List (ℝ × ℝ × Bool))
    (x : ℝ × ℝ × Bool) : ℝ :=
  (l.map fun z => IK ((sampleR z - sampleR x) / bandwidth)).sum

/-- `ah_likelihood` (loss.py lines 87-130).  The collaborators outside the
sources here are modelled from the spec (section 4.1): the kernel `K` and its
integral `IK` (from `difference_kernels` in survhive/utils.py) are abstract
functions, and the Jones 1990/1991 bandwidth rules
(survhive/bandwidth_estimation.py), selected by the `bandwidth_function`
string, are modelled as an abstract statistic `bw` of the sample — a function
of the multiset of `(time, event)` pairs, since a bandwidth estimate is
computed from the sample by a fixed formula.  The numpy matrices are
represented column-wise: a column per event sample `x`, summed over its rows. -/
def ah_likelihood (K IK : ℝ → ℝ) (bw : Multiset (ℝ × Bool) → ℝ)
    (lp time : List ℝ) (event : List Bool) : ℝ :=
  let bandwidth := bw ↑(time.zip event)
  let l := zipSamples lp time event
  let n := (time.length : ℝ)
  let E := l.filter fun x => x.2.2
  let likelihood := (1 / n) *
    (-(E.map sampleR).sum
      + (E.map fun x =>
          Real.log ((1 / (n * bandwidth)) * kernelColSum K bandwidth E x)).sum
      - (E.map fun x =>
          Real.log ((1 / n) * integratedColSumW IK bandwidth l x)).sum)
  (-likelihood)

/-- `aft_likelihood` (loss.py lines 133-169), with the same modelled
collaborators as `ah_likelihood`; it adds the event linear predictors and its
integrated-kernel sum is unweighted. -/
def aft_likelihood (K IK : ℝ → ℝ) (bw : Multiset (ℝ × Bool) → ℝ)
    (lp time : List ℝ) (event : List Bool) : ℝ :=
  let bandwidth := bw ↑(time.zip event)
  let l := zipSamples lp time event
  let n := (time.length : ℝ)
  let E := l.filter fun x => x.2.2
  let likelihood := (1 / n) *
    ((E.map fun x => x.1).sum - (E.map sampleR).sum
      + (E.map fun x =>
          Real.log ((1 / (n * bandwidth)) * kernelColSum K bandwidth E x)).sum
      - (E.map fun x =>
          Real.log ((1 / n) * integratedColSum IK bandwidth l x)).sum)
  (-likelihood)

/-- Modelled from the spec: the Efron instance of the subclass loss binding
(see `breslowLoss`) — a `sample_weight`-accepting wrapper whose value is the
kernel `efron_likelihood`, constant in the weights. -/
def efronLoss (lp time : List ℝ) (event : List Bool) (_sw : List ℝ) : ℝ :=
  efron_likelihood lp time event

/-- Modelled from the spec: the Accelerated-Hazards instance of the subclass
loss binding (see `breslowLoss`), wrapping `ah_likelihood`, constant in the
weights. -/
def ahLoss (K IK : ℝ → ℝ) (bw : Multiset (ℝ × Bool) → ℝ)
    (lp time : List ℝ) (event : List Bool) (_sw : List ℝ) : ℝ :=
  ah_likelihood K IK bw lp time event

/-- Modelled from the spec: the Accelerated-Failure-Time instance of the
subclass loss binding (see `breslowLoss`), wrapping `aft_likelihood`, constant
in the weights. -/
def aftLoss (K IK : ℝ → ℝ) (bw : Multiset (ℝ × Bool) → ℝ)
    (lp time : List ℝ) (event : List Bool) (_sw : List ℝ) : ℝ :=
  aft_likelihood K IK bw lp time event

/-! ## Theorems -/

/-- C1: every call to `CrossValidation.fit(X, y, sample_weight)` that reaches
the aggregation step after the parallel per-fold path computation raises a
`NameError` — the parallel results are bound to `eta_path` but the next
statement unpacks the undefined `xcoefs_path` — so `fit` never sets `alpha_`,
`l1_ratio_` or `coef_` and never returns `self`: whatever the parallel results
are, the aggregation step yields the `NameError` rather than a value. -/
theorem fit_aggregation_raises_nameError (etaPath : List PathFoldResult) :
    CrossValidation_fit_aggregation etaPath =
      Except.error "NameError: name xcoefs_path is not defined" := rfl

/-- C8 (code bug evidence): `SGLProximal.__call__` never returns the claimed
elementwise product: for every constructor parameters and every coefficient
vector it raises `NameError`, because the referenced class name `GLProximal`
is not among the names defined by proximal_operators.py (the group-lasso class
is `GroupLassoProximal`). -/
theorem sgl_call_raises_nameError (threshold alpha : ℝ) (groups : List (List ℕ))
    (coef : List ℝ) :
    SGLProximal_call threshold alpha groups coef =
      Except.error "NameError: name GLProximal is not defined" := rfl

/-- C3 (code bug evidence): the selection step is not an arg-max.  On the
finalized score table with a single l1 ratio `1.0`, a single alpha `0.5` and a
single (positive) mean held-out likelihood `1.0`, the claimed selection would
set `alpha_ = 0.5`; the code's guard `this_best_pl < best_pl_score` (with
`best_pl_score` initialised to `0.0`) never fires, `best_l1_ratio` is never
bound, and the assignment `self.l1_ratio_ = best_l1_ratio` raises `NameError`. -/
theorem selectBest_positive_scores_raise :
    CrossValidation_selectBest [1] [[1 / 2]] [[1]] =
      Except.error "NameError: name best_l1_ratio is not defined" := by
  norm_num [CrossValidation_selectBest, argmaxIdx]

/-- Square root of twenty-five. -/
theorem sqrt_twentyfive : Real.sqrt 25 = 5 := by
  rw [show (25 : ℝ) = 5 ^ 2 by norm_num]
  exact Real.sqrt_sq (by norm_num)

/-- The group slice `[3, -4]` has L2 norm `5`. -/
theorem l2norm_threeNegFour : l2norm [(3 : ℝ), -4] = 5 := by
  unfold l2norm
  rw [show (([(3 : ℝ), -4]).map fun v => v ^ 2).sum = 25 by norm_num]
  exact sqrt_twentyfive

/-- The group slice `[3, 4]` has L2 norm `5`. -/
theorem l2norm_threeFour : l2norm [(3 : ℝ), 4] = 5 := by
  unfold l2norm
  rw [show (([(3 : ℝ), 4]).map fun v => v ^ 2).sum = 25 by norm_num]
  exact sqrt_twentyfive

/-- The group soft threshold at threshold 5 of the slice `[3, -4]` zeroes the
first coordinate and inflates the second to `-8`: the source scales the
threshold by the signed ratio `x / ‖x‖`, so a negative coordinate is never
shrunk. -/
theorem soft_threshold_group_halfzero : soft_threshold_group [(3 : ℝ), -4] 5 = [0, -8] := by
  unfold soft_threshold_group
  rw [l2norm_threeNegFour]
  have h3 : Real.sign 3 = 1 := Real.sign_of_pos (by norm_num)
  have h4 : Real.sign (-4) = -1 := Real.sign_of_neg (by norm_num)
  simp [h3, h4]
  norm_num

/-- C6 (code bug evidence): the Group Lasso proximal operator does not zero a
group as a whole.  For the single group `[3, -4]` with threshold `5` the
group's L2 norm is `5 ≤ 5`, inside the threshold, so the claim requires both
coordinates to become zero; the code zeroes coordinate 0 but returns `-8` in
coordinate 1 — a partial (and inflating) zeroing. -/
theorem groupLasso_zeroes_only_part_of_group :
    (GroupLassoProximal_call 5 [[0, 1]] [3, -4]).ret = [0, -8] ∧
      l2norm [(3 : ℝ), -4] ≤ 5 := by
  constructor
  · unfold GroupLassoProximal_call
    simp only [List.foldl_cons, List.foldl_nil]
    rw [show gatherIdx [(3 : ℝ), -4] [0, 1] = [3, -4] by rfl]
    rw [soft_threshold_group_halfzero]
    rfl
  · rw [l2norm_threeNegFour]

/-- C7 (counterexample): applying the Group Lasso proximal operator to the
coefficient vector `[3, 4]` (one group, threshold 5) leaves the caller's
buffer holding `[0, 0]`, not the original `[3, 4]`: the operator writes
`coef[group] = ...` in place, so it is not pure in its argument. -/
theorem groupLasso_mutates_argument :
    (GroupLassoProximal_call 5 [[0, 1]] [3, 4]).arg ≠ [3, 4] := by
  have hst : soft_threshold_group [(3 : ℝ), 4] 5 = [0, 0] := by
    unfold soft_threshold_group
    rw [l2norm_threeFour]
    have h3 : Real.sign 3 = 1 := Real.sign_of_pos (by norm_num)
    have h4 : Real.sign 4 = 1 := Real.sign_of_pos (by norm_num)
    simp [h3, h4]
    norm_num
  have harg : (GroupLassoProximal_call 5 [[0, 1]] [3, 4]).arg = [0, 0] := by
    unfold GroupLassoProximal_call
    simp only [List.foldl_cons, List.foldl_nil]
    rw [show gatherIdx [(3 : ℝ), 4] [0, 1] = [3, 4] by rfl]
    rw [hst]
    rfl
  rw [harg]
  intro h
  have := List.head_eq_of_cons_eq h
  norm_num at this

/-- C7 (amended): the Lasso proximal operator is pure — the caller's buffer is
unchanged and the result is a function of `coef` and the constructor threshold
alone — while the group-indexed Group Lasso proximal operator writes its result
into the input buffer, so after the call the buffer holds the returned vector. -/
theorem proximal_frame_behaviour (threshold : ℝ) (coef : List ℝ)
    (groups : List (List ℕ)) :
    (LassoProximal_call threshold coef).arg = coef ∧
      (GroupLassoProximal_call threshold groups coef).arg =
        (GroupLassoProximal_call threshold groups coef).ret :=
  ⟨rfl, rfl⟩

/-- C2 (code bug evidence): the per-fold path computation does not fit on the
fold's training rows only.  With `train = [0]`, `test = [1]` and two datasets
that agree on the training row but differ in the test row's outcome, the
held-out linear predictors `test_eta` differ — the estimator passed to
`model.fit` saw the test rows, because `alpha_path_eta` calls
`model.fit(X, y)` on the full data instead of `X[train], y[train]`. -/
theorem alpha_path_eta_sees_test_rows :
    ((([0] : List ℕ).map fun i => ([(1 : ℝ), 2]).getD i 0) =
        (([0] : List ℕ).map fun i => ([(1 : ℝ), 5]).getD i 0)) ∧
      (alpha_path_eta (fun _ ys _ => [ys.sum]) [[1], [1]] [1, 2] [0] [1] [1]).2.1 ≠
        (alpha_path_eta (fun _ ys _ => [ys.sum]) [[1], [1]] [1, 5] [0] [1] [1]).2.1 := by
  constructor
  · rfl
  · unfold alpha_path_eta
    simp [List.insertionSort, List.orderedInsert, dotProd]

/-- Value of the Breslow loss on the toy dataset `time = [1,2,2,3,4,5]`,
`event = [1,0,1,1,0,1]`, `linear_predictor = 0`: the four death times 1, 2, 3
and 5 see risk-set partial-hazard sums 6, 5, 3 and 1. -/
theorem breslow_toy_value :
    breslow_likelihood [0, 0, 0, 0, 0, 0] [1, 2, 2, 3, 4, 5]
        [true, false, true, true, false, true] =
      (Real.log 6 + Real.log 5 + Real.log 3) / 6 := by
  unfold breslow_likelihood zipSamples
  norm_num [breslowStep, Real.exp_zero, Real.log_one]
  ring

/-- C4 (counterexample): on `time = [1,2,2,3,4,5]`, `event = [1,0,1,1,0,1]`,
`linear_predictor = 0`, `breslow_likelihood` does not return
`-(-log 6 - log 4)/6`: there are four death times, not two, and the risk-set
sums are 6, 5, 3 and 1. -/
theorem breslow_toy_not_claimed_value :
    breslow_likelihood [0, 0, 0, 0, 0, 0] [1, 2, 2, 3, 4, 5]
        [true, false, true, true, false, true] ≠
      (-(-Real.log 6 - Real.log 4)) / 6 := by
  rw [breslow_toy_value]
  intro h
  have h2 : Real.log 5 + Real.log 3 = Real.log 4 := by
    field_simp at h
    linarith
  have h15 : Real.log 5 + Real.log 3 = Real.log 15 := by
    rw [← Real.log_mul (by norm_num) (by norm_num)]
    norm_num
  have h4lt : Real.log 4 < Real.log 15 := Real.log_lt_log (by norm_num) (by norm_num)
  linarith

/-- C4 (amended): on `time = [1,2,2,3,4,5]`, `event = [1,0,1,1,0,1]`,
`linear_predictor = [0,0,0,0,0,0]`, `breslow_likelihood` returns exactly
`-(-log 6 - log 5 - log 3 - log 1)/6`, reflecting risk-set sizes 6, 5, 3 and 1
at the four death times 1, 2, 3 and 5; the tied death at `t = 2` contributes
once, with risk-set size 5. -/
theorem breslow_toy_exact_value :
    breslow_likelihood [0, 0, 0, 0, 0, 0] [1, 2, 2, 3, 4, 5]
        [true, false, true, true, false, true] =
      (-(-Real.log 6 - Real.log 5 - Real.log 3 - Real.log 1)) / 6 := by
  rw [breslow_toy_value, Real.log_one]
  ring

/-- An empty Efron tie block subtracts nothing. -/
theorem efronBlock_zero (rss dsr : ℝ) : efronBlock rss dsr 0 = 0 := by
  simp [efronBlock]

/-- An Efron tie block with a single death subtracts the plain log risk-set
sum: the fractional correction `(0 / 1) * death_set_risk` vanishes. -/
theorem efronBlock_one (rss dsr : ℝ) : efronBlock rss dsr 1 = Real.log rss := by
  simp [efronBlock]

/-- The Efron flush coincides with the Breslow flush when at most one death is
pending. -/
theorem efronBlock_eq_count_mul_log (rss dsr : ℝ) (n : ℕ) (h : n ≤ 1) :
    efronBlock rss dsr n = (n : ℝ) * Real.log rss := by
  rcases Nat.le_one_iff_eq_zero_or_eq_one.mp h with h0 | h1
  · rw [h0, efronBlock_zero]
    simp
  · rw [h1, efronBlock_one]
    simp

/-- Both likelihood loops always write the sample's time into `previous_time`. -/
theorem breslowStep_previousTime (s : BreslowState) (x : ℝ × ℝ × Bool) :
    (breslowStep s x).previousTime = x.2.1 := rfl

/-- Evaluation of one Efron loop iteration on an event sample with strictly
larger time (flush case). -/
theorem efronStep_flush_event (s : EfronState) (x : ℝ × ℝ × Bool)
    (ht : s.previousTime < x.2.1) (he : x.2.2 = true) :
    efronStep s x =
      { previousTime := x.2.1, riskSetSum := s.riskSetSum - s.accumulatedSum,
        accumulatedSum := 0 + Real.exp x.1, deathSetCount := 0 + 1,
        deathSetRisk := 0 + Real.exp x.1,
        likelihood := s.likelihood -
          efronBlock s.riskSetSum s.deathSetRisk s.deathSetCount + x.1 } := by
  unfold efronStep
  rw [if_pos ht, he]
  rfl

/-- Evaluation of one Efron loop iteration on an event sample without a time
increase (no flush). -/
theorem efronStep_stay_event (s : EfronState) (x : ℝ × ℝ × Bool)
    (ht : ¬ s.previousTime < x.2.1) (he : x.2.2 = true) :
    efronStep s x =
      { previousTime := x.2.1, riskSetSum := s.riskSetSum,
        accumulatedSum := s.accumulatedSum + Real.exp x.1,
        deathSetCount := s.deathSetCount + 1,
        deathSetRisk := s.deathSetRisk + Real.exp x.1,
        likelihood := s.likelihood + x.1 } := by
  unfold efronStep
  rw [if_neg ht, he]
  rfl

/-- Evaluation of one Breslow loop iteration on an event sample with strictly
larger time (flush case). -/
theorem breslowStep_flush_event (s : BreslowState) (x : ℝ × ℝ × Bool)
    (ht : s.previousTime < x.2.1) (he : x.2.2 = true) :
    breslowStep s x =
      { previousTime := x.2.1, riskSetSum := s.riskSetSum - s.accumulatedSum,
        likelihood := s.likelihood - (s.setCount : ℝ) * Real.log s.riskSetSum + x.1,
        setCount := 0 + 1, accumulatedSum := 0 + Real.exp x.1 } := by
  unfold breslowStep
  rw [if_pos ht, he]
  rfl

/-- Evaluation of one Breslow loop iteration on an event sample without a time
increase (no flush). -/
theorem breslowStep_stay_event (s : BreslowState) (x : ℝ × ℝ × Bool)
    (ht : ¬ s.previousTime < x.2.1) (he : x.2.2 = true) :
    breslowStep s x =
      { previousTime := x.2.1, riskSetSum := s.riskSetSum,
        likelihood := s.likelihood + x.1, setCount := s.setCount + 1,
        accumulatedSum := s.accumulatedSum + Real.exp x.1 } := by
  unfold breslowStep
  rw [if_neg ht, he]
  rfl

/-- The state coupling is preserved by one loop iteration on a sample with a
strictly larger time (a flush) and an observed event. -/
theorem efron_breslow_step_flush (se : EfronState) (sb : BreslowState)
    (x : ℝ × ℝ × Bool) (hrel : efronBreslowRel se sb)
    (ht : sb.previousTime < x.2.1) (he : x.2.2 = true) :
    efronBreslowRel (efronStep se x) (breslowStep sb x) := by
  obtain ⟨h1, h2, h3, h4, h5, h6⟩ := hrel
  have hte : se.previousTime < x.2.1 := by rw [h1]; exact ht
  have hblock : efronBlock se.riskSetSum se.deathSetRisk se.deathSetCount =
      (sb.setCount : ℝ) * Real.log sb.riskSetSum := by
    rw [efronBlock_eq_count_mul_log se.riskSetSum se.deathSetRisk se.deathSetCount h6,
      h5, h2]
  rw [efronStep_flush_event se x hte he, breslowStep_flush_event sb x ht he]
  exact ⟨rfl, by rw [h2, h3], rfl, by rw [h4, hblock], rfl, by norm_num⟩

/-- The state coupling is preserved by one loop iteration on a sample whose
time does not exceed `previous_time` (no flush), provided no death is pending
yet and the sample is an observed event. -/
theorem efron_breslow_step_stay (se : EfronState) (sb : BreslowState)
    (x : ℝ × ℝ × Bool) (hrel : efronBreslowRel se sb)
    (ht : ¬ sb.previousTime < x.2.1) (hcnt : se.deathSetCount = 0)
    (he : x.2.2 = true) :
    efronBreslowRel (efronStep se x) (breslowStep sb x) := by
  obtain ⟨h1, h2, h3, h4, h5, h6⟩ := hrel
  have hte : ¬ se.previousTime < x.2.1 := by rw [h1]; exact ht
  rw [efronStep_stay_event se x hte he, breslowStep_stay_event sb x ht he]
  exact ⟨rfl, h2, by rw [h3], by rw [h4], by rw [h5], by simp [hcnt]⟩

/-- The state coupling is preserved by the whole loop over a strictly
ascending, all-event suffix whose times all exceed the current
`previous_time`. -/
theorem efron_breslow_foldl (l : List (ℝ × ℝ × Bool)) :
    ∀ (se : EfronState) (sb : BreslowState), efronBreslowRel se sb →
      (∀ x ∈ l, x.2.2 = true) → (∀ x ∈ l, sb.previousTime < x.2.1) →
      List.Pairwise (fun a b : ℝ × ℝ × Bool => a.2.1 < b.2.1) l →
      efronBreslowRel (l.foldl efronStep se) (l.foldl breslowStep sb) := by
  induction l with
  | nil => exact fun se sb h _ _ _ => h
  | cons x r ih =>
    intro se sb hrel hev hgt hpair
    simp only [List.foldl_cons]
    have hx : x.2.2 = true := hev x (List.mem_cons_self x r)
    have hrel2 := efron_breslow_step_flush se sb x hrel
      (hgt x (List.mem_cons_self x r)) hx
    refine ih (efronStep se x) (breslowStep sb x) hrel2
      (fun z hz => hev z (List.mem_cons_of_mem x hz)) ?_
      (List.pairwise_cons.mp hpair).2
    intro z hz
    rw [breslowStep_previousTime]
    exact (List.pairwise_cons.mp hpair).1 z hz

/-- A sample of the zipped triple list draws its time from `time` and its
event flag from `event`. -/
theorem zipSamples_mem {lp time : List ℝ} {event : List Bool} {z : ℝ × ℝ × Bool}
    (h : z ∈ zipSamples lp time event) : z.2.1 ∈ time ∧ z.2.2 ∈ event := by
  have h2 := (List.of_mem_zip h).2
  exact ⟨(List.of_mem_zip h2).1, (List.of_mem_zip h2).2⟩

/-- The time components of the zipped triple list form a sublist of `time`. -/
theorem zipSamples_timeComps_sublist :
    ∀ (lp time : List ℝ) (event : List Bool),
      List.Sublist ((zipSamples lp time event).map fun z => z.2.1) time := by
  intro lp
  induction lp with
  | nil => intro time event; simp [zipSamples]
  | cons a lp2 ih =>
    intro time event
    cases time with
    | nil => simp [zipSamples]
    | cons t time2 =>
      cases event with
      | nil => simp [zipSamples]
      | cons b ev2 =>
        simpa only [zipSamples, List.zip_cons_cons, List.map_cons] using
          (ih time2 ev2).cons₂ t

/-- Running both likelihood loops from the initial state over an all-event
list whose head time equals the initial `previous_time` and whose remaining
times are strictly larger and strictly ascending produces the same final
likelihood expression. -/
theorem efron_breslow_run (x : ℝ × ℝ × Bool) (r : List (ℝ × ℝ × Bool)) (R n : ℝ)
    (hx : x.2.2 = true) (hev : ∀ z ∈ r, z.2.2 = true)
    (hgt : ∀ z ∈ r, x.2.1 < z.2.1)
    (hpair : List.Pairwise (fun u v : ℝ × ℝ × Bool => u.2.1 < v.2.1) r) :
    (-((List.foldl efronStep ⟨x.2.1, R, 0, 0, 0, 0⟩ (x :: r)).likelihood
        - efronBlock (List.foldl efronStep ⟨x.2.1, R, 0, 0, 0, 0⟩ (x :: r)).riskSetSum
            (List.foldl efronStep ⟨x.2.1, R, 0, 0, 0, 0⟩ (x :: r)).deathSetRisk
            (List.foldl efronStep ⟨x.2.1, R, 0, 0, 0, 0⟩ (x :: r)).deathSetCount)) / n =
      (-((List.foldl breslowStep ⟨x.2.1, R, 0, 0, 0⟩ (x :: r)).likelihood
          - ((List.foldl breslowStep ⟨x.2.1, R, 0, 0, 0⟩ (x :: r)).setCount : ℝ)
            * Real.log (List.foldl breslowStep ⟨x.2.1, R, 0, 0, 0⟩ (x :: r)).riskSetSum)) / n := by
  simp only [List.foldl_cons]
  have hrel0 : efronBreslowRel ⟨x.2.1, R, 0, 0, 0, 0⟩ ⟨x.2.1, R, 0, 0, 0⟩ :=
    ⟨rfl, rfl, rfl, rfl, rfl, Nat.zero_le 1⟩
  have hrel1 := efron_breslow_step_stay ⟨x.2.1, R, 0, 0, 0, 0⟩ ⟨x.2.1, R, 0, 0, 0⟩ x hrel0
    (lt_irrefl x.2.1) rfl hx
  obtain ⟨p1, p2, p3, p4, p5, p6⟩ :=
    efron_breslow_foldl r _ _ hrel1 hev
      (fun z hz => by rw [breslowStep_previousTime]; exact hgt z hz) hpair
  rw [p4, p2, efronBlock_eq_count_mul_log _ _ _ p6, p5]

/-- C5: on any input whose times are sorted strictly ascending (no ties) and
whose samples are all observed events (no censoring), `efron_likelihood` and
`breslow_likelihood` agree exactly: the Efron tie-correction reduces to the
standard Cox partial likelihood. -/
theorem efron_eq_breslow_no_ties_no_censoring (lp time : List ℝ) (event : List Bool)
    (hsorted : List.Pairwise (fun a b : ℝ => a < b) time)
    (hall : ∀ e ∈ event, e = true) :
    efron_likelihood lp time event = breslow_likelihood lp time event := by
  unfold efron_likelihood breslow_likelihood
  cases lp with
  | nil => simp [zipSamples, efronBlock_zero]
  | cons a lp2 =>
    cases time with
    | nil => simp [zipSamples, efronBlock_zero]
    | cons t time2 =>
      cases event with
      | nil => simp [zipSamples, efronBlock_zero]
      | cons b ev2 =>
        have hb : b = true := hall b (List.mem_cons_self b ev2)
        have hpair2 : List.Pairwise
            (fun u v : ℝ × ℝ × Bool => u.2.1 < v.2.1) (zipSamples lp2 time2 ev2) := by
          have hsub := zipSamples_timeComps_sublist lp2 time2 ev2
          have hp := ((List.pairwise_cons.mp hsorted).2).sublist hsub
          rwa [List.pairwise_map] at hp
        have hgt2 : ∀ z ∈ zipSamples lp2 time2 ev2, (a, t, b).2.1 < z.2.1 := by
          intro z hz
          exact (List.pairwise_cons.mp hsorted).1 z.2.1 (zipSamples_mem hz).1
        have hev2 : ∀ z ∈ zipSamples lp2 time2 ev2, z.2.2 = true := fun z hz =>
          hall z.2.2 (List.mem_cons_of_mem b (zipSamples_mem hz).2)
        have hbx : ((a, t, b) : ℝ × ℝ × Bool).2.2 = true := hb
        exact efron_breslow_run (a, t, b) (zipSamples lp2 time2 ev2)
          ((((a :: lp2).take (t :: time2).length).map Real.exp).sum)
          (((t :: time2).length : ℝ)) hbx hev2 hgt2 hpair2

/-- Witness for C5: the hypotheses hold and the theorem applies at the
concrete input `lp = [0, 0]`, `time = [1, 2]`, `event = [1, 1]`. -/
theorem efron_eq_breslow_witness :
    efron_likelihood [0, 0] [1, 2] [true, true] =
      breslow_likelihood [0, 0] [1, 2] [true, true] :=
  efron_eq_breslow_no_ties_no_censoring [0, 0] [1, 2] [true, true]
    (by norm_num [List.pairwise_cons]) (by simp)

/-- Evaluation of one Breslow loop iteration on a censored sample with
strictly larger time (flush case). -/
theorem breslowStep_flush_noevent (s : BreslowState) (x : ℝ × ℝ × Bool)
    (ht : s.previousTime < x.2.1) (he : x.2.2 = false) :
    breslowStep s x =
      { previousTime := x.2.1, riskSetSum := s.riskSetSum - s.accumulatedSum,
        likelihood := s.likelihood - (s.setCount : ℝ) * Real.log s.riskSetSum,
        setCount := 0, accumulatedSum := 0 + Real.exp x.1 } := by
  unfold breslowStep
  rw [if_pos ht, he]
  rfl

/-- Evaluation of one Breslow loop iteration on a censored sample without a
time increase (no flush). -/
theorem breslowStep_stay_noevent (s : BreslowState) (x : ℝ × ℝ × Bool)
    (ht : ¬ s.previousTime < x.2.1) (he : x.2.2 = false) :
    breslowStep s x =
      { previousTime := x.2.1, riskSetSum := s.riskSetSum,
        likelihood := s.likelihood, setCount := s.setCount,
        accumulatedSum := s.accumulatedSum + Real.exp x.1 } := by
  unfold breslowStep
  rw [if_neg ht, he]
  rfl

theorem expSum_cons (x : ℝ × ℝ × Bool) (r : List (ℝ × ℝ × Bool)) :
    expSum (x :: r) = Real.exp x.1 + expSum r := by
  simp [expSum]

theorem eventLpSum_cons (x : ℝ × ℝ × Bool) (r : List (ℝ × ℝ × Bool)) :
    eventLpSum (x :: r) = (if x.2.2 then x.1 else 0) + eventLpSum r := by
  simp [eventLpSum]

theorem riskSumAt_cons (x : ℝ × ℝ × Bool) (r : List (ℝ × ℝ × Bool)) (t : ℝ) :
    riskSumAt (x :: r) t = (if t ≤ x.2.1 then Real.exp x.1 else 0) + riskSumAt r t := by
  simp [riskSumAt]

/-- When every remaining time is at least `t`, the risk sum at `t` is the full
partial-hazard sum. -/
theorem riskSumAt_eq_expSum (r : List (ℝ × ℝ × Bool)) (t : ℝ)
    (h : ∀ z ∈ r, t ≤ z.2.1) : riskSumAt r t = expSum r := by
  unfold riskSumAt expSum
  congr 1
  apply List.map_congr_left
  intro z hz
  rw [if_pos (h z hz)]

/-- With no pending block mass the generalised risk sum is the plain risk sum. -/
theorem riskG_zero_acc (p : ℝ) (l : List (ℝ × ℝ × Bool)) (t : ℝ) :
    riskG p 0 l t = riskSumAt l t := by
  unfold riskG
  rw [ite_self]
  ring

theorem eventLogRiskSum_eq_over (p a : ℝ) (l : List (ℝ × ℝ × Bool)) :
    eventLogRiskSum p a l = eventLogRiskSumOver p a l l := rfl

theorem eventLogRiskSumOver_cons (p a : ℝ) (big : List (ℝ × ℝ × Bool))
    (x : ℝ × ℝ × Bool) (l : List (ℝ × ℝ × Bool)) :
    eventLogRiskSumOver p a big (x :: l) =
      (if x.2.2 then Real.log (riskG p a big x.2.1) else 0) +
        eventLogRiskSumOver p a big l := by
  simp [eventLogRiskSumOver]

/-- Two generalised log-risk sums agree when the underlying risk sums agree on
every summed sample. -/
theorem eventLogRiskSumOver_congr {p1 a1 p2 a2 : ℝ}
    {big1 big2 l : List (ℝ × ℝ × Bool)}
    (h : ∀ z ∈ l, riskG p1 a1 big1 z.2.1 = riskG p2 a2 big2 z.2.1) :
    eventLogRiskSumOver p1 a1 big1 l = eventLogRiskSumOver p2 a2 big2 l := by
  unfold eventLogRiskSumOver
  congr 1
  apply List.map_congr_left
  intro z hz
  rw [h z hz]

/-- Risk seen by the head of a freshly flushed block. -/
theorem riskG_head_flush (p a : ℝ) (x : ℝ × ℝ × Bool) (r : List (ℝ × ℝ × Bool))
    (hp : p < x.2.1) (hge : ∀ z ∈ r, x.2.1 ≤ z.2.1) :
    riskG p a (x :: r) x.2.1 = Real.exp x.1 + expSum r := by
  unfold riskG
  rw [if_neg (not_le.mpr hp), riskSumAt_cons, if_pos le_rfl,
    riskSumAt_eq_expSum r x.2.1 hge]
  ring

/-- Risk seen by a sample joining the current block. -/
theorem riskG_head_stay (a : ℝ) (x : ℝ × ℝ × Bool) (r : List (ℝ × ℝ × Bool))
    (hge : ∀ z ∈ r, x.2.1 ≤ z.2.1) :
    riskG x.2.1 a (x :: r) x.2.1 = a + (Real.exp x.1 + expSum r) := by
  unfold riskG
  rw [if_pos le_rfl, riskSumAt_cons, if_pos le_rfl,
    riskSumAt_eq_expSum r x.2.1 hge]

/-- After a flush on `x`, later samples see the same risk whether the head
mass is carried in the accumulator or in the list. -/
theorem riskG_tail_flush (p a : ℝ) (x : ℝ × ℝ × Bool) (r : List (ℝ × ℝ × Bool))
    (t : ℝ) (hp : p < x.2.1) (hxt : x.2.1 ≤ t) :
    riskG x.2.1 (0 + Real.exp x.1) r t = riskG p a (x :: r) t := by
  unfold riskG
  rw [riskSumAt_cons, if_neg (not_le.mpr (lt_of_lt_of_le hp hxt))]
  by_cases h : t ≤ x.2.1
  · rw [if_pos h, if_pos h]
    ring
  · rw [if_neg h, if_neg h]
    ring

/-- Within a block, later samples see the same risk whether the head mass is
carried in the accumulator or in the list. -/
theorem riskG_tail_stay (a : ℝ) (x : ℝ × ℝ × Bool) (r : List (ℝ × ℝ × Bool))
    (t : ℝ) :
    riskG x.2.1 (a + Real.exp x.1) r t = riskG x.2.1 a (x :: r) t := by
  unfold riskG
  rw [riskSumAt_cons]
  by_cases h : t ≤ x.2.1
  · rw [if_pos h, if_pos h, if_pos h]
    ring
  · rw [if_neg h, if_neg h, if_neg h]
    ring

/-- Expansion of the event log-risk sum over a cons cell. -/
theorem eventLogRiskSum_cons (p a : ℝ) (x : ℝ × ℝ × Bool) (l : List (ℝ × ℝ × Bool)) :
    eventLogRiskSum p a (x :: l) =
      (if x.2.2 then Real.log (riskG p a (x :: l) x.2.1) else 0) +
        eventLogRiskSumOver p a (x :: l) l := by
  simp [eventLogRiskSum, eventLogRiskSumOver]

/-- Closed form of the Breslow loop from any mid-block state: folding the rest
of a sorted sample list adds, to the running likelihood expression, the event
linear predictors minus the log generalised risk sums. -/
theorem breslow_fold_outcome (r : List (ℝ × ℝ × Bool)) :
    ∀ s : BreslowState,
      List.Pairwise (fun u v : ℝ × ℝ × Bool => u.2.1 ≤ v.2.1) r →
      (∀ x ∈ r, s.previousTime ≤ x.2.1) →
      s.riskSetSum = s.accumulatedSum + expSum r →
      (r.foldl breslowStep s).likelihood
          - ((r.foldl breslowStep s).setCount : ℝ)
            * Real.log (r.foldl breslowStep s).riskSetSum
        = s.likelihood - (s.setCount : ℝ) * Real.log s.riskSetSum
          + eventLpSum r - eventLogRiskSum s.previousTime s.accumulatedSum r := by
  induction r with
  | nil =>
    intro s _ _ _
    simp [eventLpSum, eventLogRiskSum, eventLogRiskSumOver]
  | cons x r2 ih =>
    intro s hpair hge hinv
    have hgex : s.previousTime ≤ x.2.1 := hge x (List.mem_cons_self x r2)
    have hr2ge : ∀ z ∈ r2, x.2.1 ≤ z.2.1 := (List.pairwise_cons.mp hpair).1
    have hpair2 := (List.pairwise_cons.mp hpair).2
    have hge2 : ∀ z ∈ r2, (breslowStep s x).previousTime ≤ z.2.1 := by
      intro z hz
      rw [breslowStep_previousTime]
      exact hr2ge z hz
    simp only [List.foldl_cons]
    rcases eq_or_lt_of_le hgex with heq | hlt
    · -- the sample joins the current tie block (no flush)
      have hnl : ¬ s.previousTime < x.2.1 := by rw [heq]; exact lt_irrefl _
      have hhead : Real.log (riskG x.2.1 s.accumulatedSum (x :: r2) x.2.1) =
          Real.log s.riskSetSum := by
        rw [riskG_head_stay s.accumulatedSum x r2 hr2ge, hinv, expSum_cons]
      have htail : eventLogRiskSumOver x.2.1 s.accumulatedSum (x :: r2) r2 =
          eventLogRiskSum x.2.1 (s.accumulatedSum + Real.exp x.1) r2 := by
        rw [eventLogRiskSum_eq_over]
        exact (eventLogRiskSumOver_congr fun z hz =>
          riskG_tail_stay s.accumulatedSum x r2 z.2.1).symm
      cases hxe : x.2.2 with
      | false =>
        have hinv2 : (breslowStep s x).riskSetSum =
            (breslowStep s x).accumulatedSum + expSum r2 := by
          rw [breslowStep_stay_noevent s x hnl hxe]
          show s.riskSetSum = s.accumulatedSum + Real.exp x.1 + expSum r2
          rw [hinv, expSum_cons]
          ring
        rw [ih (breslowStep s x) hpair2 hge2 hinv2,
          breslowStep_stay_noevent s x hnl hxe]
        dsimp only
        rw [eventLpSum_cons, eventLogRiskSum_cons, heq, htail]
        simp only [hxe, Bool.false_eq_true, if_false]
        ring
      | true =>
        have hinv2 : (breslowStep s x).riskSetSum =
            (breslowStep s x).accumulatedSum + expSum r2 := by
          rw [breslowStep_stay_event s x hnl hxe]
          show s.riskSetSum = s.accumulatedSum + Real.exp x.1 + expSum r2
          rw [hinv, expSum_cons]
          ring
        rw [ih (breslowStep s x) hpair2 hge2 hinv2,
          breslowStep_stay_event s x hnl hxe]
        dsimp only
        rw [eventLpSum_cons, eventLogRiskSum_cons, heq, htail]
        simp only [hxe, if_true]
        rw [hhead]
        push_cast
        ring
    · -- strictly larger time: the pending block is flushed first
      have harg : s.riskSetSum - s.accumulatedSum = Real.exp x.1 + expSum r2 := by
        rw [hinv, expSum_cons]
        ring
      have hhead : Real.log (riskG s.previousTime s.accumulatedSum (x :: r2) x.2.1) =
          Real.log (s.riskSetSum - s.accumulatedSum) := by
        rw [riskG_head_flush s.previousTime s.accumulatedSum x r2 hlt hr2ge, harg]
      have htail : eventLogRiskSumOver s.previousTime s.accumulatedSum (x :: r2) r2 =
          eventLogRiskSum x.2.1 (0 + Real.exp x.1) r2 := by
        rw [eventLogRiskSum_eq_over]
        exact (eventLogRiskSumOver_congr fun z hz =>
          riskG_tail_flush s.previousTime s.accumulatedSum x r2 z.2.1 hlt
            (hr2ge z hz)).symm
      cases hxe : x.2.2 with
      | false =>
        have hinv2 : (breslowStep s x).riskSetSum =
            (breslowStep s x).accumulatedSum + expSum r2 := by
          rw [breslowStep_flush_noevent s x hlt hxe]
          show s.riskSetSum - s.accumulatedSum = 0 + Real.exp x.1 + expSum r2
          rw [harg]
          ring
        rw [ih (breslowStep s x) hpair2 hge2 hinv2,
          breslowStep_flush_noevent s x hlt hxe]
        dsimp only
        rw [eventLpSum_cons, eventLogRiskSum_cons, htail]
        simp only [hxe, Bool.false_eq_true, if_false]
        push_cast
        ring
      | true =>
        have hinv2 : (breslowStep s x).riskSetSum =
            (breslowStep s x).accumulatedSum + expSum r2 := by
          rw [breslowStep_flush_event s x hlt hxe]
          show s.riskSetSum - s.accumulatedSum = 0 + Real.exp x.1 + expSum r2
          rw [harg]
          ring
        rw [ih (breslowStep s x) hpair2 hge2 hinv2,
          breslowStep_flush_event s x hlt hxe]
        dsimp only
        rw [eventLpSum_cons, eventLogRiskSum_cons, htail]
        simp only [hxe, if_true]
        rw [hhead]
        push_cast
        ring

/-- On a time-sorted sample list the Breslow loop computes the closed-form
negative mean log partial likelihood. -/
theorem breslowOfSamples_eq_closed (l : List (ℝ × ℝ × Bool))
    (hsort : List.Pairwise (fun u v : ℝ × ℝ × Bool => u.2.1 ≤ v.2.1) l) :
    breslowOfSamples l = breslowClosed l := by
  simp only [breslowOfSamples, breslowClosed]
  have hge : ∀ z ∈ l, ((l.map fun z => z.2.1).headD 0 : ℝ) ≤ z.2.1 := by
    cases l with
    | nil => intro z hz; cases hz
    | cons x r =>
      intro z hz
      rcases List.mem_cons.mp hz with rfl | hz2
      · simp
      · simpa using (List.pairwise_cons.mp hsort).1 z hz2
  have h := breslow_fold_outcome l
    ⟨(l.map fun z => z.2.1).headD 0, expSum l, 0, 0, 0⟩ hsort hge
    (by show expSum l = 0 + expSum l; ring)
  rw [h]
  have hz : eventLogRiskSum ((l.map fun z => z.2.1).headD 0) 0 l
      = (l.map fun x => if x.2.2 then Real.log (riskSumAt l x.2.1) else 0).sum := by
    unfold eventLogRiskSum
    congr 1
    apply List.map_congr_left
    intro z hz
    rw [riskG_zero_acc]
  rw [hz]
  push_cast
  ring

/-- The Breslow closed form depends on the sample list only through its
multiset: it is invariant under permutations. -/
theorem breslowClosed_perm {l1 l2 : List (ℝ × ℝ × Bool)} (h : l1.Perm l2) :
    breslowClosed l1 = breslowClosed l2 := by
  unfold breslowClosed
  have hlen := h.length_eq
  have hlp : eventLpSum l1 = eventLpSum l2 :=
    List.Perm.sum_eq (h.map fun x => if x.2.2 then x.1 else 0)
  have hrisk : ∀ t, riskSumAt l1 t = riskSumAt l2 t := fun t =>
    List.Perm.sum_eq (h.map fun z => if t ≤ z.2.1 then Real.exp z.1 else 0)
  have hmap1 : (l1.map fun x => if x.2.2 then Real.log (riskSumAt l1 x.2.1) else 0)
      = l1.map fun x => if x.2.2 then Real.log (riskSumAt l2 x.2.1) else 0 := by
    apply List.map_congr_left
    intro z hz
    rw [hrisk]
  have hsum : (l1.map fun x => if x.2.2 then Real.log (riskSumAt l1 x.2.1) else 0).sum
      = (l2.map fun x => if x.2.2 then Real.log (riskSumAt l2 x.2.1) else 0).sum := by
    rw [hmap1]
    exact List.Perm.sum_eq
      (h.map fun x => if x.2.2 then Real.log (riskSumAt l2 x.2.1) else 0)
  rw [hlp, hsum, hlen]

/-- Zipping three maps of one record list yields the map of the triple. -/
theorem zipSamples_map {α : Type} (rows : List α) (f g : α → ℝ) (h : α → Bool) :
    zipSamples (rows.map f) (rows.map g) (rows.map h) =
      rows.map fun r => (f r, g r, h r) := by
  induction rows with
  | nil => rfl
  | cons r rs ih =>
    simp only [List.map_cons, zipSamples, List.zip_cons_cons] at ih ⊢
    rw [ih]

/-- `breslow_likelihood` applied to the three per-row arrays of a record list
equals the Breslow loop on the corresponding triple list. -/
theorem breslow_on_rows (rows : List ((List ℝ) × ℝ)) (predict : List ℝ → ℝ) :
    breslow_likelihood (rows.map fun r => predict r.1) (rows.map fun r => |r.2|)
        (rows.map fun r => decide (0 ≤ r.2)) =
      breslowOfSamples (rows.map fun r => (predict r.1, |r.2|, decide (0 ≤ r.2))) := by
  unfold breslow_likelihood breslowOfSamples
  rw [zipSamples_map]
  have htake : ((rows.map fun r => predict r.1).take (rows.map fun r => |r.2|).length)
      = rows.map fun r => predict r.1 := by
    rw [List.length_map, ← List.length_map rows (fun r => predict r.1), List.take_length]
  have hhead : ((rows.map fun r => (predict r.1, |r.2|, decide (0 ≤ r.2))).map
      fun z => z.2.1) = rows.map fun r => |r.2| := by
    rw [List.map_map]
    rfl
  have hexp : ((rows.map fun r => predict r.1).map Real.exp).sum
      = expSum (rows.map fun r => (predict r.1, |r.2|, decide (0 ≤ r.2))) := by
    unfold expSum
    rw [List.map_map, List.map_map]
    rfl
  rw [htake, hhead, hexp, List.length_map, List.length_map]

/-- The modelled baseline cumulative hazard is nonnegative. -/
theorem baselineCumulativeHazard_nonneg (trainEta trainTime : List ℝ)
    (trainEvent : List Bool) (t : ℝ) :
    0 ≤ baselineCumulativeHazard trainEta trainTime trainEvent t := by
  unfold baselineCumulativeHazard
  apply List.sum_nonneg
  intro v hv
  obtain ⟨s, hs, rfl⟩ := List.mem_map.mp hv
  by_cases h : s.2.1 = true ∧ s.1 ≤ t
  · rw [if_pos h]
    apply one_div_nonneg.mpr
    apply List.sum_nonneg
    intro w hw
    obtain ⟨u, hu, rfl⟩ := List.mem_map.mp hw
    exact (Real.exp_pos u.2).le
  · rw [if_neg h]

/-- The modelled baseline cumulative hazard is non-decreasing in time. -/
theorem baselineCumulativeHazard_mono (trainEta trainTime : List ℝ)
    (trainEvent : List Bool) {t1 t2 : ℝ} (h : t1 ≤ t2) :
    baselineCumulativeHazard trainEta trainTime trainEvent t1 ≤
      baselineCumulativeHazard trainEta trainTime trainEvent t2 := by
  unfold baselineCumulativeHazard
  apply List.sum_le_sum
  intro s hs
  by_cases hc : s.2.1 = true ∧ s.1 ≤ t1
  · rw [if_pos hc, if_pos ⟨hc.1, le_trans hc.2 h⟩]
  · rw [if_neg hc]
    by_cases hc2 : s.2.1 = true ∧ s.1 ≤ t2
    · rw [if_pos hc2]
      apply one_div_nonneg.mpr
      apply List.sum_nonneg
      intro w hw
      obtain ⟨u, hu, rfl⟩ := List.mem_map.mp hw
      exact (Real.exp_pos u.2).le
    · rw [if_neg hc2]

/-- C10: `predict_survival_function(X, time)` equals
`exp(-predict_cumulative_hazard_function(X, time))` entry by entry, every
entry of the returned table lies in `[0, 1]`, and each sample's row is
non-increasing along the (sorted) query times.  The concrete cumulative hazard
is modelled from the spec (`predict_cumulative_hazard_function`): it sorts the
query times and accumulates the nonnegative Breslow-type baseline hazard. -/
theorem survival_function_spec (trainEta trainTime : List ℝ) (trainEvent : List Bool)
    (predict : List ℝ → ℝ) (X : List (List ℝ)) (time : List ℝ) :
    predict_survival_function trainEta trainTime trainEvent predict X time =
        (predict_cumulative_hazard_function trainEta trainTime trainEvent predict X
          time).map (fun row => row.map fun h => Real.exp (-h)) ∧
      (predict_survival_function trainEta trainTime trainEvent predict X time).Forall
        (fun row => row.Forall fun v => 0 ≤ v ∧ v ≤ 1) ∧
      (predict_survival_function trainEta trainTime trainEvent predict X time).Forall
        (fun row => List.Pairwise (fun u v : ℝ => v ≤ u) row) := by
  have hidem : (time.insertionSort fun a b => a ≤ b).insertionSort
      (fun a b : ℝ => a ≤ b) = time.insertionSort fun a b => a ≤ b :=
    List.Sorted.insertionSort_eq
      (List.sorted_insertionSort (fun a b : ℝ => a ≤ b) time)
  refine ⟨?_, ?_, ?_⟩
  · simp only [predict_survival_function, predict_cumulative_hazard_function, hidem]
  · rw [List.forall_iff_forall_mem]
    intro row hrow
    rw [List.forall_iff_forall_mem]
    intro v hv
    simp only [predict_survival_function, predict_cumulative_hazard_function,
      List.mem_map] at hrow
    obtain ⟨crow, ⟨xrow, hx, rfl⟩, rfl⟩ := hrow
    rw [List.map_map, List.mem_map] at hv
    obtain ⟨t, ht, rfl⟩ := hv
    have hH : 0 ≤ baselineCumulativeHazard trainEta trainTime trainEvent t *
        Real.exp (predict xrow) :=
      mul_nonneg (baselineCumulativeHazard_nonneg trainEta trainTime trainEvent t)
        (Real.exp_pos (predict xrow)).le
    constructor
    · exact (Real.exp_pos _).le
    · calc Real.exp (-(baselineCumulativeHazard trainEta trainTime trainEvent t *
            Real.exp (predict xrow))) ≤ Real.exp 0 :=
          Real.exp_le_exp.mpr (by linarith)
      _ = 1 := Real.exp_zero
  · rw [List.forall_iff_forall_mem]
    intro row hrow
    simp only [predict_survival_function, predict_cumulative_hazard_function,
      List.mem_map] at hrow
    obtain ⟨crow, ⟨xrow, hx, rfl⟩, rfl⟩ := hrow
    rw [List.map_map]
    have hsorted := List.sorted_insertionSort (fun a b : ℝ => a ≤ b)
      (time.insertionSort fun a b : ℝ => a ≤ b)
    refine hsorted.map _ ?_
    intro a b hab
    apply Real.exp_le_exp.mpr
    have := mul_le_mul_of_nonneg_right
      (baselineCumulativeHazard_mono trainEta trainTime trainEvent hab)
      (Real.exp_pos (predict xrow)).le
    simp only [Function.comp]
    linarith

/-- Evaluation of one Efron loop iteration on a censored sample with strictly
larger time (flush case). -/
theorem efronStep_flush_noevent (s : EfronState) (x : ℝ × ℝ × Bool)
    (ht : s.previousTime < x.2.1) (he : x.2.2 = false) :
    efronStep s x =
      { previousTime := x.2.1, riskSetSum := s.riskSetSum - s.accumulatedSum,
        accumulatedSum := 0 + Real.exp x.1, deathSetCount := 0,
        deathSetRisk := 0,
        likelihood := s.likelihood -
          efronBlock s.riskSetSum s.deathSetRisk s.deathSetCount } := by
  unfold efronStep
  rw [if_pos ht, he]
  rfl

/-- Evaluation of one Efron loop iteration on a censored sample without a time
increase (no flush). -/
theorem efronStep_stay_noevent (s : EfronState) (x : ℝ × ℝ × Bool)
    (ht : ¬ s.previousTime < x.2.1) (he : x.2.2 = false) :
    efronStep s x =
      { previousTime := x.2.1, riskSetSum := s.riskSetSum,
        accumulatedSum := s.accumulatedSum + Real.exp x.1,
        deathSetCount := s.deathSetCount,
        deathSetRisk := s.deathSetRisk,
        likelihood := s.likelihood } := by
  unfold efronStep
  rw [if_neg ht, he]
  rfl

theorem deathRiskAt_cons (x : ℝ × ℝ × Bool) (r : List (ℝ × ℝ × Bool)) (t : ℝ) :
    deathRiskAt (x :: r) t =
      (if x.2.1 = t ∧ x.2.2 then Real.exp x.1 else 0) + deathRiskAt r t := by
  simp [deathRiskAt]

theorem deathCountAt_cons (x : ℝ × ℝ × Bool) (r : List (ℝ × ℝ × Bool)) (t : ℝ) :
    deathCountAt (x :: r) t =
      deathCountAt r t + (if (decide (x.2.1 = t) && x.2.2) = true then 1 else 0) := by
  simp [deathCountAt, List.countP_cons]

/-- No sample at time `t` means no death mass at `t`. -/
theorem deathRiskAt_eq_zero (r : List (ℝ × ℝ × Bool)) (t : ℝ)
    (h : ∀ z ∈ r, z.2.1 ≠ t) : deathRiskAt r t = 0 := by
  unfold deathRiskAt
  rw [List.sum_eq_zero]
  intro v hv
  obtain ⟨z, hz, rfl⟩ := List.mem_map.mp hv
  rw [if_neg]
  intro hc
  exact h z hz hc.1

/-- No sample at time `t` means no death count at `t`. -/
theorem deathCountAt_eq_zero (r : List (ℝ × ℝ × Bool)) (t : ℝ)
    (h : ∀ z ∈ r, z.2.1 ≠ t) : deathCountAt r t = 0 := by
  unfold deathCountAt
  rw [List.countP_eq_zero]
  intro z hz
  simp only [Bool.and_eq_true, decide_eq_true_eq]
  intro hc
  exact h z hz hc.1

/-- A sample strictly before a block time does not change that block's term. -/
theorem efronBlockAt_cons_gt (x : ℝ × ℝ × Bool) (r : List (ℝ × ℝ × Bool))
    (τ : ℝ) (h : x.2.1 < τ) :
    efronBlockAt (x :: r) τ = efronBlockAt r τ := by
  unfold efronBlockAt
  rw [riskSumAt_cons, if_neg (not_le.mpr h), deathRiskAt_cons,
    if_neg (fun hc => absurd hc.1 (ne_of_lt h)), deathCountAt_cons]
  have hb : (decide (x.2.1 = τ) && x.2.2) = false := by
    simp [ne_of_lt h]
  rw [hb]
  norm_num

/-- Appending a sample at the pending block time leaves the other block terms
unchanged. -/
theorem efronBlocksSum_cons_stay (p : ℝ) (x : ℝ × ℝ × Bool)
    (r : List (ℝ × ℝ × Bool)) (hx : x.2.1 = p) (hge : ∀ z ∈ r, p ≤ z.2.1) :
    efronBlocksSum p (x :: r) = efronBlocksSum p r := by
  unfold efronBlocksSum
  simp only [List.map_cons, List.toFinset_cons, hx]
  rw [Finset.filter_insert, if_neg (by simp)]
  apply Finset.sum_congr rfl
  intro τ hτ
  rw [Finset.mem_filter] at hτ
  obtain ⟨hmem, hne⟩ := hτ
  rw [List.mem_toFinset] at hmem
  obtain ⟨z, hz, rfl⟩ := List.mem_map.mp hmem
  apply efronBlockAt_cons_gt
  rw [hx]
  exact lt_of_le_of_ne (hge z hz) (Ne.symm hne)

/-- A flush at a strictly larger time splits off that time's block term from
the remaining blocks. -/
theorem efronBlocksSum_cons_flush (p : ℝ) (x : ℝ × ℝ × Bool)
    (r : List (ℝ × ℝ × Bool)) (hp : p < x.2.1) (hge : ∀ z ∈ r, x.2.1 ≤ z.2.1) :
    efronBlocksSum p (x :: r) =
      efronBlockAt (x :: r) x.2.1 + efronBlocksSum x.2.1 r := by
  unfold efronBlocksSum
  simp only [List.map_cons, List.toFinset_cons]
  rw [Finset.filter_insert, if_pos (Ne.symm (ne_of_lt hp))]
  have hTfilter : ((r.map fun z => z.2.1).toFinset.filter fun τ => τ ≠ p) =
      (r.map fun z => z.2.1).toFinset := by
    apply Finset.filter_true_of_mem
    intro τ hτ
    rw [List.mem_toFinset] at hτ
    obtain ⟨z, hz, rfl⟩ := List.mem_map.mp hτ
    exact Ne.symm (ne_of_lt (lt_of_lt_of_le hp (hge z hz)))
  rw [hTfilter]
  have htrans : ∀ τ ∈ (r.map fun z => z.2.1).toFinset.filter fun τ => τ ≠ x.2.1,
      efronBlockAt (x :: r) τ = efronBlockAt r τ := by
    intro τ hτ
    rw [Finset.mem_filter] at hτ
    obtain ⟨hmem, hne⟩ := hτ
    rw [List.mem_toFinset] at hmem
    obtain ⟨z, hz, rfl⟩ := List.mem_map.mp hmem
    exact efronBlockAt_cons_gt x r z.2.1 (lt_of_le_of_ne (hge z hz) (Ne.symm hne))
  by_cases hmem : x.2.1 ∈ (r.map fun z => z.2.1).toFinset
  · rw [Finset.insert_eq_self.mpr hmem,
      ← Finset.add_sum_erase _ (efronBlockAt (x :: r)) hmem]
    congr 1
    rw [← Finset.filter_ne' (r.map fun z => z.2.1).toFinset x.2.1]
    exact Finset.sum_congr rfl htrans
  · rw [Finset.sum_insert hmem]
    congr 1
    have hfid : ((r.map fun z => z.2.1).toFinset.filter fun τ => τ ≠ x.2.1) =
        (r.map fun z => z.2.1).toFinset := by
      apply Finset.filter_true_of_mem
      intro τ hτ
      intro heqq
      exact hmem (heqq ▸ hτ)
    rw [hfid]
    apply Finset.sum_congr rfl
    intro τ hτ
    apply htrans
    rw [hfid]
    exact hτ

/-- The Efron loop always writes the sample time into `previous_time`. -/
theorem efronStep_previousTime (s : EfronState) (x : ℝ × ℝ × Bool) :
    (efronStep s x).previousTime = x.2.1 := rfl

/-- Closed form of the Efron loop from any mid-block state: folding the rest
of a sorted sample list adds the event linear predictors and subtracts the
pending block's completed flush term and the flush terms of all later
blocks. -/
theorem efron_fold_outcome (r : List (ℝ × ℝ × Bool)) :
    ∀ s : EfronState,
      List.Pairwise (fun u v : ℝ × ℝ × Bool => u.2.1 ≤ v.2.1) r →
      (∀ x ∈ r, s.previousTime ≤ x.2.1) →
      s.riskSetSum = s.accumulatedSum + expSum r →
      (r.foldl efronStep s).likelihood
          - efronBlock (r.foldl efronStep s).riskSetSum
              (r.foldl efronStep s).deathSetRisk
              (r.foldl efronStep s).deathSetCount
        = s.likelihood + eventLpSum r
          - efronBlock s.riskSetSum
              (s.deathSetRisk + deathRiskAt r s.previousTime)
              (s.deathSetCount + deathCountAt r s.previousTime)
          - efronBlocksSum s.previousTime r := by
  induction r with
  | nil =>
    intro s _ _ _
    simp [eventLpSum, deathRiskAt, deathCountAt, efronBlocksSum]
  | cons x r2 ih =>
    intro s hpair hge hinv
    have hgex : s.previousTime ≤ x.2.1 := hge x (List.mem_cons_self x r2)
    have hr2ge : ∀ z ∈ r2, x.2.1 ≤ z.2.1 := (List.pairwise_cons.mp hpair).1
    have hpair2 := (List.pairwise_cons.mp hpair).2
    have hge2 : ∀ z ∈ r2, (efronStep s x).previousTime ≤ z.2.1 := by
      intro z hz
      rw [efronStep_previousTime]
      exact hr2ge z hz
    simp only [List.foldl_cons]
    rcases eq_or_lt_of_le hgex with heq | hlt
    · -- the sample joins the pending tie block (no flush)
      have hnl : ¬ s.previousTime < x.2.1 := by rw [heq]; exact lt_irrefl _
      cases hxe : x.2.2 with
      | false =>
        have hinv2 : (efronStep s x).riskSetSum =
            (efronStep s x).accumulatedSum + expSum r2 := by
          rw [efronStep_stay_noevent s x hnl hxe]
          show s.riskSetSum = s.accumulatedSum + Real.exp x.1 + expSum r2
          rw [hinv, expSum_cons]
          ring
        rw [ih (efronStep s x) hpair2 hge2 hinv2,
          efronStep_stay_noevent s x hnl hxe]
        dsimp only
        have hlp : eventLpSum (x :: r2) = 0 + eventLpSum r2 := by
          rw [eventLpSum_cons, if_neg (by simp [hxe])]
        have hdr : deathRiskAt (x :: r2) x.2.1 = 0 + deathRiskAt r2 x.2.1 := by
          rw [deathRiskAt_cons, if_neg (by simp [hxe])]
        have hdc : deathCountAt (x :: r2) x.2.1 = deathCountAt r2 x.2.1 + 0 := by
          rw [deathCountAt_cons, if_neg (by simp [hxe])]
        rw [heq, hlp, hdr, hdc, efronBlocksSum_cons_stay x.2.1 x r2 rfl hr2ge]
        simp only [zero_add, add_zero]
      | true =>
        have hinv2 : (efronStep s x).riskSetSum =
            (efronStep s x).accumulatedSum + expSum r2 := by
          rw [efronStep_stay_event s x hnl hxe]
          show s.riskSetSum = s.accumulatedSum + Real.exp x.1 + expSum r2
          rw [hinv, expSum_cons]
          ring
        rw [ih (efronStep s x) hpair2 hge2 hinv2,
          efronStep_stay_event s x hnl hxe]
        dsimp only
        have hlp : eventLpSum (x :: r2) = x.1 + eventLpSum r2 := by
          rw [eventLpSum_cons, if_pos hxe]
        have hdr : deathRiskAt (x :: r2) x.2.1 =
            Real.exp x.1 + deathRiskAt r2 x.2.1 := by
          rw [deathRiskAt_cons, if_pos ⟨rfl, hxe⟩]
        have hdc : deathCountAt (x :: r2) x.2.1 = deathCountAt r2 x.2.1 + 1 := by
          rw [deathCountAt_cons, if_pos (by simp [hxe])]
        rw [heq, hlp, hdr, hdc, efronBlocksSum_cons_stay x.2.1 x r2 rfl hr2ge]
        have e1 : s.deathSetRisk + Real.exp x.1 + deathRiskAt r2 x.2.1
            = s.deathSetRisk + (Real.exp x.1 + deathRiskAt r2 x.2.1) := by
          ring
        have e2 : s.deathSetCount + 1 + deathCountAt r2 x.2.1
            = s.deathSetCount + (deathCountAt r2 x.2.1 + 1) := by
          omega
        rw [e1, e2]
        ring
    · -- strictly larger time: the pending block is flushed first
      have harg : s.riskSetSum - s.accumulatedSum = Real.exp x.1 + expSum r2 := by
        rw [hinv, expSum_cons]
        ring
      have hneq : ∀ z ∈ x :: r2, z.2.1 ≠ s.previousTime := by
        intro z hz
        rcases List.mem_cons.mp hz with rfl | hz2
        · exact Ne.symm (ne_of_lt hlt)
        · exact Ne.symm (ne_of_lt (lt_of_lt_of_le hlt (hr2ge z hz2)))
      have hdr0 : deathRiskAt (x :: r2) s.previousTime = 0 :=
        deathRiskAt_eq_zero (x :: r2) s.previousTime hneq
      have hdc0 : deathCountAt (x :: r2) s.previousTime = 0 :=
        deathCountAt_eq_zero (x :: r2) s.previousTime hneq
      have hrisk : riskSumAt (x :: r2) x.2.1 = s.riskSetSum - s.accumulatedSum := by
        rw [riskSumAt_cons, if_pos le_rfl, riskSumAt_eq_expSum r2 x.2.1 hr2ge, harg]
      cases hxe : x.2.2 with
      | false =>
        have hinv2 : (efronStep s x).riskSetSum =
            (efronStep s x).accumulatedSum + expSum r2 := by
          rw [efronStep_flush_noevent s x hlt hxe]
          show s.riskSetSum - s.accumulatedSum = 0 + Real.exp x.1 + expSum r2
          rw [harg]
          ring
        rw [ih (efronStep s x) hpair2 hge2 hinv2,
          efronStep_flush_noevent s x hlt hxe]
        dsimp only
        have hlp : eventLpSum (x :: r2) = 0 + eventLpSum r2 := by
          rw [eventLpSum_cons, if_neg (by simp [hxe])]
        have hdr : deathRiskAt (x :: r2) x.2.1 = 0 + deathRiskAt r2 x.2.1 := by
          rw [deathRiskAt_cons, if_neg (by simp [hxe])]
        have hdc : deathCountAt (x :: r2) x.2.1 = deathCountAt r2 x.2.1 + 0 := by
          rw [deathCountAt_cons, if_neg (by simp [hxe])]
        have hblockx : efronBlockAt (x :: r2) x.2.1 =
            efronBlock (s.riskSetSum - s.accumulatedSum)
              (0 + deathRiskAt r2 x.2.1) (0 + deathCountAt r2 x.2.1) := by
          unfold efronBlockAt
          rw [hrisk, hdr]
          rw [hdc]
          congr 1
          omega
        rw [hlp, hdr0, hdc0, efronBlocksSum_cons_flush s.previousTime x r2 hlt hr2ge,
          hblockx]
        simp only [zero_add, add_zero]
        ring
      | true =>
        have hinv2 : (efronStep s x).riskSetSum =
            (efronStep s x).accumulatedSum + expSum r2 := by
          rw [efronStep_flush_event s x hlt hxe]
          show s.riskSetSum - s.accumulatedSum = 0 + Real.exp x.1 + expSum r2
          rw [harg]
          ring
        rw [ih (efronStep s x) hpair2 hge2 hinv2,
          efronStep_flush_event s x hlt hxe]
        dsimp only
        have hlp : eventLpSum (x :: r2) = x.1 + eventLpSum r2 := by
          rw [eventLpSum_cons, if_pos hxe]
        have hdr : deathRiskAt (x :: r2) x.2.1 =
            Real.exp x.1 + deathRiskAt r2 x.2.1 := by
          rw [deathRiskAt_cons, if_pos ⟨rfl, hxe⟩]
        have hdc : deathCountAt (x :: r2) x.2.1 = deathCountAt r2 x.2.1 + 1 := by
          rw [deathCountAt_cons, if_pos (by simp [hxe])]
        have hblockx : efronBlockAt (x :: r2) x.2.1 =
            efronBlock (s.riskSetSum - s.accumulatedSum)
              (0 + Real.exp x.1 + deathRiskAt r2 x.2.1)
              (0 + 1 + deathCountAt r2 x.2.1) := by
          unfold efronBlockAt
          rw [hrisk, hdr, hdc]
          congr 1
          · ring
          · omega
        rw [hlp, hdr0, hdc0, efronBlocksSum_cons_flush s.previousTime x r2 hlt hr2ge,
          hblockx]
        simp only [add_zero]
        ring

/-- On a time-sorted sample list the Efron loop computes the closed-form
negative mean log partial likelihood. -/
theorem efronOfSamples_eq_closed (l : List (ℝ × ℝ × Bool))
    (hsort : List.Pairwise (fun u v : ℝ × ℝ × Bool => u.2.1 ≤ v.2.1) l) :
    efronOfSamples l = efronClosed l := by
  cases l with
  | nil =>
    simp [efronOfSamples, efronClosed, efronBlock, eventLpSum]
  | cons x r =>
    have hge : ∀ z ∈ x :: r, x.2.1 ≤ z.2.1 := by
      intro z hz
      rcases List.mem_cons.mp hz with rfl | hz2
      · exact le_refl _
      · exact (List.pairwise_cons.mp hsort).1 z hz2
    simp only [efronOfSamples, efronClosed]
    have hge0 : ∀ z ∈ x :: r, (((x :: r).map fun z => z.2.1).headD 0 : ℝ) ≤ z.2.1 := by
      simp only [List.map_cons, List.headD_cons]
      exact hge
    have h := efron_fold_outcome (x :: r)
      ⟨(((x :: r).map fun z => z.2.1).headD 0), expSum (x :: r), 0, 0, 0, 0⟩
      hsort hge0 (by show expSum (x :: r) = 0 + expSum (x :: r); ring)
    rw [h]
    have hmem : x.2.1 ∈ (((x :: r).map fun z => z.2.1).toFinset) := by
      simp
    have hsplit : ∑ τ ∈ ((x :: r).map fun z => z.2.1).toFinset, efronBlockAt (x :: r) τ
        = efronBlockAt (x :: r) x.2.1 + efronBlocksSum x.2.1 (x :: r) := by
      unfold efronBlocksSum
      rw [Finset.filter_ne']
      exact (Finset.add_sum_erase _ _ hmem).symm
    have hblock0 : efronBlockAt (x :: r) x.2.1
        = efronBlock (expSum (x :: r)) (deathRiskAt (x :: r) x.2.1)
            (deathCountAt (x :: r) x.2.1) := by
      unfold efronBlockAt
      rw [riskSumAt_eq_expSum (x :: r) x.2.1 hge]
    rw [hsplit, hblock0]
    simp only [List.map_cons, List.headD_cons, zero_add]
    ring

/-- The Efron closed form depends on the sample list only through its
multiset: it is invariant under permutations. -/
theorem efronClosed_perm {l1 l2 : List (ℝ × ℝ × Bool)} (h : l1.Perm l2) :
    efronClosed l1 = efronClosed l2 := by
  unfold efronClosed
  have hlen := h.length_eq
  have hlp : eventLpSum l1 = eventLpSum l2 :=
    List.Perm.sum_eq (h.map fun x => if x.2.2 then x.1 else 0)
  have htf : ((l1.map fun z => z.2.1).toFinset) = ((l2.map fun z => z.2.1).toFinset) := by
    ext τ
    simp only [List.mem_toFinset]
    exact (h.map fun z => z.2.1).mem_iff
  have hblock : ∀ τ, efronBlockAt l1 τ = efronBlockAt l2 τ := by
    intro τ
    unfold efronBlockAt
    rw [show riskSumAt l1 τ = riskSumAt l2 τ from
        List.Perm.sum_eq (h.map fun z => if τ ≤ z.2.1 then Real.exp z.1 else 0),
      show deathRiskAt l1 τ = deathRiskAt l2 τ from
        List.Perm.sum_eq (h.map fun z => if z.2.1 = τ ∧ z.2.2 then Real.exp z.1 else 0),
      show deathCountAt l1 τ = deathCountAt l2 τ from
        List.Perm.countP_eq (fun z : ℝ × ℝ × Bool => decide (z.2.1 = τ) && z.2.2) h]
  have hsum : (∑ τ ∈ (l1.map fun z => z.2.1).toFinset, efronBlockAt l1 τ)
      = ∑ τ ∈ (l2.map fun z => z.2.1).toFinset, efronBlockAt l2 τ := by
    rw [htf]
    exact Finset.sum_congr rfl fun τ _ => hblock τ
  rw [hlp, hsum, hlen]

/-- `efron_likelihood` applied to the three per-row arrays of a record list
equals the Efron loop on the corresponding triple list. -/
theorem efron_on_rows (rows : List ((List ℝ) × ℝ)) (predict : List ℝ → ℝ) :
    efron_likelihood (rows.map fun r => predict r.1) (rows.map fun r => |r.2|)
        (rows.map fun r => decide (0 ≤ r.2)) =
      efronOfSamples (rows.map fun r => (predict r.1, |r.2|, decide (0 ≤ r.2))) := by
  unfold efron_likelihood efronOfSamples
  rw [zipSamples_map]
  have htake : ((rows.map fun r => predict r.1).take (rows.map fun r => |r.2|).length)
      = rows.map fun r => predict r.1 := by
    rw [List.length_map, ← List.length_map rows (fun r => predict r.1), List.take_length]
  have hhead : ((rows.map fun r => (predict r.1, |r.2|, decide (0 ≤ r.2))).map
      fun z => z.2.1) = rows.map fun r => |r.2| := by
    rw [List.map_map]
    rfl
  have hexp : ((rows.map fun r => predict r.1).map Real.exp).sum
      = expSum (rows.map fun r => (predict r.1, |r.2|, decide (0 ≤ r.2))) := by
    unfold expSum
    rw [List.map_map, List.map_map]
    rfl
  rw [htake, hhead, hexp, List.length_map, List.length_map]

/-- Zipping two maps of one record list yields the map of the pair. -/
theorem zip_map_pair {α : Type} (rows : List α) (g : α → ℝ) (e : α → Bool) :
    (rows.map g).zip (rows.map e) = rows.map fun r => (g r, e r) := by
  induction rows with
  | nil => rfl
  | cons r rs ih =>
    simp only [List.map_cons, List.zip_cons_cons]
    rw [ih]

/-- The Accelerated-Hazards likelihood on the per-row arrays of a record list
is invariant under permutations of the records. -/
theorem ah_rows_perm (K IK : ℝ → ℝ) (bw : Multiset (ℝ × Bool) → ℝ)
    (predict : List ℝ → ℝ) {rows1 rows2 : List ((List ℝ) × ℝ)}
    (h : rows1.Perm rows2) :
    ah_likelihood K IK bw (rows1.map fun r => predict r.1)
        (rows1.map fun r => |r.2|) (rows1.map fun r => decide (0 ≤ r.2)) =
      ah_likelihood K IK bw (rows2.map fun r => predict r.1)
        (rows2.map fun r => |r.2|) (rows2.map fun r => decide (0 ≤ r.2)) := by
  simp only [ah_likelihood]
  rw [zipSamples_map, zipSamples_map, zip_map_pair, zip_map_pair]
  have hbw : bw ↑(rows1.map fun r => (|r.2|, decide (0 ≤ r.2)))
      = bw ↑(rows2.map fun r => (|r.2|, decide (0 ≤ r.2))) :=
    congrArg bw (Multiset.coe_eq_coe.mpr (h.map fun r => (|r.2|, decide (0 ≤ r.2))))
  have hlen : (rows1.map fun r : (List ℝ) × ℝ => |r.2|).length
      = (rows2.map fun r : (List ℝ) × ℝ => |r.2|).length := by
    rw [List.length_map, List.length_map, h.length_eq]
  rw [hbw, hlen]
  have hl : ((rows1.map fun r => (predict r.1, |r.2|, decide (0 ≤ r.2)))).Perm
      (rows2.map fun r => (predict r.1, |r.2|, decide (0 ≤ r.2))) :=
    h.map fun r => (predict r.1, |r.2|, decide (0 ≤ r.2))
  have hE : (((rows1.map fun r => (predict r.1, |r.2|, decide (0 ≤ r.2))).filter
        fun x => x.2.2)).Perm
      ((rows2.map fun r => (predict r.1, |r.2|, decide (0 ≤ r.2))).filter
        fun x => x.2.2) :=
    hl.filter fun x => x.2.2
  set B := bw ↑(rows2.map fun r => (|r.2|, decide (0 ≤ r.2))) with hB
  set n := ((rows2.map fun r : (List ℝ) × ℝ => |r.2|).length : ℝ) with hn
  set l2 := rows2.map fun r => (predict r.1, |r.2|, decide (0 ≤ r.2)) with hl2
  set l1 := rows1.map fun r => (predict r.1, |r.2|, decide (0 ≤ r.2)) with hl1
  set E1 := l1.filter fun x => x.2.2 with hE1
  set E2 := l2.filter fun x => x.2.2 with hE2
  have h1 : (E1.map sampleR).sum = (E2.map sampleR).sum :=
    List.Perm.sum_eq (hE.map sampleR)
  have hker : ∀ x, kernelColSum K B E1 x = kernelColSum K B E2 x := fun x =>
    List.Perm.sum_eq (hE.map fun z => K ((sampleR z - sampleR x) / B))
  have h2 : (E1.map fun x =>
        Real.log ((1 / (n * B)) * kernelColSum K B E1 x)).sum
      = (E2.map fun x =>
        Real.log ((1 / (n * B)) * kernelColSum K B E2 x)).sum := by
    rw [List.map_congr_left fun x _ => by rw [hker x]]
    exact List.Perm.sum_eq
      (hE.map fun x => Real.log ((1 / (n * B)) * kernelColSum K B E2 x))
  have hint : ∀ x, integratedColSumW IK B l1 x = integratedColSumW IK B l2 x :=
    fun x => List.Perm.sum_eq
      (hl.map fun z => Real.exp z.1 * IK ((sampleR z - sampleR x) / B))
  have h3 : (E1.map fun x =>
        Real.log ((1 / n) * integratedColSumW IK B l1 x)).sum
      = (E2.map fun x =>
        Real.log ((1 / n) * integratedColSumW IK B l2 x)).sum := by
    rw [List.map_congr_left fun x _ => by rw [hint x]]
    exact List.Perm.sum_eq
      (hE.map fun x => Real.log ((1 / n) * integratedColSumW IK B l2 x))
  rw [h1, h2, h3]

/-- The Accelerated-Failure-Time likelihood on the per-row arrays of a record
list is invariant under permutations of the records. -/
theorem aft_rows_perm (K IK : ℝ → ℝ) (bw : Multiset (ℝ × Bool) → ℝ)
    (predict : List ℝ → ℝ) {rows1 rows2 : List ((List ℝ) × ℝ)}
    (h : rows1.Perm rows2) :
    aft_likelihood K IK bw (rows1.map fun r => predict r.1)
        (rows1.map fun r => |r.2|) (rows1.map fun r => decide (0 ≤ r.2)) =
      aft_likelihood K IK bw (rows2.map fun r => predict r.1)
        (rows2.map fun r => |r.2|) (rows2.map fun r => decide (0 ≤ r.2)) := by
  simp only [aft_likelihood]
  rw [zipSamples_map, zipSamples_map, zip_map_pair, zip_map_pair]
  have hbw : bw ↑(rows1.map fun r => (|r.2|, decide (0 ≤ r.2)))
      = bw ↑(rows2.map fun r => (|r.2|, decide (0 ≤ r.2))) :=
    congrArg bw (Multiset.coe_eq_coe.mpr (h.map fun r => (|r.2|, decide (0 ≤ r.2))))
  have hlen : (rows1.map fun r : (List ℝ) × ℝ => |r.2|).length
      = (rows2.map fun r : (List ℝ) × ℝ => |r.2|).length := by
    rw [List.length_map, List.length_map, h.length_eq]
  rw [hbw, hlen]
  have hl : ((rows1.map fun r => (predict r.1, |r.2|, decide (0 ≤ r.2)))).Perm
      (rows2.map fun r => (predict r.1, |r.2|, decide (0 ≤ r.2))) :=
    h.map fun r => (predict r.1, |r.2|, decide (0 ≤ r.2))
  have hE : (((rows1.map fun r => (predict r.1, |r.2|, decide (0 ≤ r.2))).filter
        fun x => x.2.2)).Perm
      ((rows2.map fun r => (predict r.1, |r.2|, decide (0 ≤ r.2))).filter
        fun x => x.2.2) :=
    hl.filter fun x => x.2.2
  set B := bw ↑(rows2.map fun r => (|r.2|, decide (0 ≤ r.2))) with hB
  set n := ((rows2.map fun r : (List ℝ) × ℝ => |r.2|).length : ℝ) with hn
  set l2 := rows2.map fun r => (predict r.1, |r.2|, decide (0 ≤ r.2)) with hl2
  set l1 := rows1.map fun r => (predict r.1, |r.2|, decide (0 ≤ r.2)) with hl1
  set E1 := l1.filter fun x => x.2.2 with hE1
  set E2 := l2.filter fun x => x.2.2 with hE2
  have h0 : (E1.map fun x => x.1).sum = (E2.map fun x => x.1).sum :=
    List.Perm.sum_eq (hE.map fun x => x.1)
  have h1 : (E1.map sampleR).sum = (E2.map sampleR).sum :=
    List.Perm.sum_eq (hE.map sampleR)
  have hker : ∀ x, kernelColSum K B E1 x = kernelColSum K B E2 x := fun x =>
    List.Perm.sum_eq (hE.map fun z => K ((sampleR z - sampleR x) / B))
  have h2 : (E1.map fun x =>
        Real.log ((1 / (n * B)) * kernelColSum K B E1 x)).sum
      = (E2.map fun x =>
        Real.log ((1 / (n * B)) * kernelColSum K B E2 x)).sum := by
    rw [List.map_congr_left fun x _ => by rw [hker x]]
    exact List.Perm.sum_eq
      (hE.map fun x => Real.log ((1 / (n * B)) * kernelColSum K B E2 x))
  have hint : ∀ x, integratedColSum IK B l1 x = integratedColSum IK B l2 x :=
    fun x => List.Perm.sum_eq
      (hl.map fun z => IK ((sampleR z - sampleR x) / B))
  have h3 : (E1.map fun x =>
        Real.log ((1 / n) * integratedColSum IK B l1 x)).sum
      = (E2.map fun x =>
        Real.log ((1 / n) * integratedColSum IK B l2 x)).sum := by
    rw [List.map_congr_left fun x _ => by rw [hint x]]
    exact List.Perm.sum_eq
      (hE.map fun x => Real.log ((1 / n) * integratedColSum IK B l2 x))
  rw [h0, h1, h2, h3]

/-- C9: `score(X, y)` equals the negative of the model loss evaluated on
`(X, y)` stably sorted by ascending time, with sample weights defaulting to the
uniform `1/n`; and for each model loss kernel of loss.py — Breslow, Efron, and
the kernel-smoothed Accelerated-Hazards and Accelerated-Failure-Time
likelihoods, the latter two for every kernel function, integrated kernel and
bandwidth statistic — the score is invariant under every joint permutation of
the rows of `X` and `y` (`self.predict` and the subclass loss binding are
modelled from the spec). -/
theorem score_sorted_loss_and_perm_invariant :
    (∀ (lossFn : List ℝ → List ℝ → List Bool → List ℝ → ℝ)
        (predict : List ℝ → ℝ) (X : List (List ℝ)) (y : List ℝ),
        ∃ rows2 : List ((List ℝ) × ℝ),
          (X.zip y).Perm rows2 ∧
          List.Pairwise (fun a b : (List ℝ) × ℝ => |a.2| ≤ |b.2|) rows2 ∧
          scoreRLSM lossFn predict X y =
            -(lossFn (rows2.map fun r => predict r.1) (rows2.map fun r => |r.2|)
                (rows2.map fun r => decide (0 ≤ r.2))
                (List.replicate y.length (1 / (y.length : ℝ))))) ∧
    (∀ (predict : List ℝ → ℝ) (X X2 : List (List ℝ)) (y y2 : List ℝ),
        (X.zip y).Perm (X2.zip y2) →
        scoreRLSM breslowLoss predict X y = scoreRLSM breslowLoss predict X2 y2) ∧
    (∀ (predict : List ℝ → ℝ) (X X2 : List (List ℝ)) (y y2 : List ℝ),
        (X.zip y).Perm (X2.zip y2) →
        scoreRLSM efronLoss predict X y = scoreRLSM efronLoss predict X2 y2) ∧
    (∀ (K IK : ℝ → ℝ) (bw : Multiset (ℝ × Bool) → ℝ)
        (predict : List ℝ → ℝ) (X X2 : List (List ℝ)) (y y2 : List ℝ),
        (X.zip y).Perm (X2.zip y2) →
        scoreRLSM (ahLoss K IK bw) predict X y =
          scoreRLSM (ahLoss K IK bw) predict X2 y2) ∧
    (∀ (K IK : ℝ → ℝ) (bw : Multiset (ℝ × Bool) → ℝ)
        (predict : List ℝ → ℝ) (X X2 : List (List ℝ)) (y y2 : List ℝ),
        (X.zip y).Perm (X2.zip y2) →
        scoreRLSM (aftLoss K IK bw) predict X y =
          scoreRLSM (aftLoss K IK bw) predict X2 y2) := by
  refine ⟨?_, ?_, ?_, ?_, ?_⟩
  · intro lossFn predict X y
    exact ⟨(X.zip y).insertionSort fun a b => |a.2| ≤ |b.2|,
      (List.perm_insertionSort _ _).symm, List.sorted_insertionSort _ _, rfl⟩
  · intro predict X X2 y y2 hperm
    have hsort1 := List.sorted_insertionSort
      (fun a b : (List ℝ) × ℝ => |a.2| ≤ |b.2|) (X.zip y)
    have hsort2 := List.sorted_insertionSort
      (fun a b : (List ℝ) × ℝ => |a.2| ≤ |b.2|) (X2.zip y2)
    have hs1 : List.Pairwise (fun u v : ℝ × ℝ × Bool => u.2.1 ≤ v.2.1)
        (((X.zip y).insertionSort fun a b => |a.2| ≤ |b.2|).map
          fun r => (predict r.1, |r.2|, decide (0 ≤ r.2))) := by
      rw [List.pairwise_map]
      exact hsort1
    have hs2 : List.Pairwise (fun u v : ℝ × ℝ × Bool => u.2.1 ≤ v.2.1)
        (((X2.zip y2).insertionSort fun a b => |a.2| ≤ |b.2|).map
          fun r => (predict r.1, |r.2|, decide (0 ≤ r.2))) := by
      rw [List.pairwise_map]
      exact hsort2
    simp only [scoreRLSM, breslowLoss, inverse_transform_survival]
    rw [breslow_on_rows, breslow_on_rows,
      breslowOfSamples_eq_closed _ hs1, breslowOfSamples_eq_closed _ hs2,
      breslowClosed_perm
        (List.Perm.map (fun r => (predict r.1, |r.2|, decide (0 ≤ r.2)))
          (((List.perm_insertionSort (fun a b : (List ℝ) × ℝ => |a.2| ≤ |b.2|)
              (X.zip y)).trans hperm).trans
            (List.perm_insertionSort (fun a b : (List ℝ) × ℝ => |a.2| ≤ |b.2|)
              (X2.zip y2)).symm))]
  · intro predict X X2 y y2 hperm
    have hsort1 := List.sorted_insertionSort
      (fun a b : (List ℝ) × ℝ => |a.2| ≤ |b.2|) (X.zip y)
    have hsort2 := List.sorted_insertionSort
      (fun a b : (List ℝ) × ℝ => |a.2| ≤ |b.2|) (X2.zip y2)
    have hs1 : List.Pairwise (fun u v : ℝ × ℝ × Bool => u.2.1 ≤ v.2.1)
        (((X.zip y).insertionSort fun a b => |a.2| ≤ |b.2|).map
          fun r => (predict r.1, |r.2|, decide (0 ≤ r.2))) := by
      rw [List.pairwise_map]
      exact hsort1
    have hs2 : List.Pairwise (fun u v : ℝ × ℝ × Bool => u.2.1 ≤ v.2.1)
        (((X2.zip y2).insertionSort fun a b => |a.2| ≤ |b.2|).map
          fun r => (predict r.1, |r.2|, decide (0 ≤ r.2))) := by
      rw [List.pairwise_map]
      exact hsort2
    simp only [scoreRLSM, efronLoss, inverse_transform_survival]
    rw [efron_on_rows, efron_on_rows,
      efronOfSamples_eq_closed _ hs1, efronOfSamples_eq_closed _ hs2,
      efronClosed_perm
        (List.Perm.map (fun r => (predict r.1, |r.2|, decide (0 ≤ r.2)))
          (((List.perm_insertionSort (fun a b : (List ℝ) × ℝ => |a.2| ≤ |b.2|)
              (X.zip y)).trans hperm).trans
            (List.perm_insertionSort (fun a b : (List ℝ) × ℝ => |a.2| ≤ |b.2|)
              (X2.zip y2)).symm))]
  · intro K IK bw predict X X2 y y2 hperm
    simp only [scoreRLSM, ahLoss, inverse_transform_survival]
    rw [ah_rows_perm K IK bw predict
      (((List.perm_insertionSort (fun a b : (List ℝ) × ℝ => |a.2| ≤ |b.2|)
          (X.zip y)).trans hperm).trans
        (List.perm_insertionSort (fun a b : (List ℝ) × ℝ => |a.2| ≤ |b.2|)
          (X2.zip y2)).symm)]
  · intro K IK bw predict X X2 y y2 hperm
    simp only [scoreRLSM, aftLoss, inverse_transform_survival]
    rw [aft_rows_perm K IK bw predict
      (((List.perm_insertionSort (fun a b : (List ℝ) × ℝ => |a.2| ≤ |b.2|)
          (X.zip y)).trans hperm).trans
        (List.perm_insertionSort (fun a b : (List ℝ) × ℝ => |a.2| ≤ |b.2|)
          (X2.zip y2)).symm)]

/-- Witness for C9: the Breslow permutation-invariance hypothesis is discharged
at the concrete two-row dataset and its row swap. -/
theorem score_perm_invariant_witness :
    scoreRLSM breslowLoss (fun r => r.sum) [[1], [2]] [1, -2] =
      scoreRLSM breslowLoss (fun r => r.sum) [[2], [1]] [-2, 1] :=
  score_sorted_loss_and_perm_invariant.2.1 (fun r => r.sum) [[1], [2]] [[2], [1]]
    [1, -2] [-2, 1] (List.Perm.swap ([2], -2) ([1], 1) [])

end

end Survhive